import Mathlib

/-!
# PL011 UART driver: `MyOS/devices/uart/pl011.c`

A shallow embedding of the interrupt-driven serial driver and the properties
its specification states about it.

Conventions of the embedding

* The header `pl011.h` is not part of the sources.  Its constants (`SBUFSIZE`,
  `RX_BIT`, `TX_BIT`, `TXFF`) are the fields of `Config`, a parameter of every
  function.  Its `UART` control block and the register block behind `up->base`
  are modelled from the specification.
* The indices and counters of the control block are C `int`s; they are
  mathematical integers here and `%` is the truncating remainder `Int.tmod`.
* A byte is a natural number; the only narrowing conversions of the source
  (register value to `char` in `do_rx`, register value to `u8` in
  `uart_handler`) are written `% 256`.
* A call is atomic and the device registers do not change while it runs.  A
  call that does not return yields `Except.error` carrying the reason and the
  port state at which the call is stuck.
-/

namespace PL011

/-- Constants that `pl011.h` defines and `pl011.c` uses. -/
structure Config where
  /-- Capacity of both ring buffers. -/
  SBUFSIZE : Nat
  /-- Receive bit of `IMSC` and `MIS`. -/
  RX_BIT : Nat
  /-- Transmit bit of `IMSC` and `MIS`. -/
  TX_BIT : Nat
  /-- Transmit holding register full, a bit of `UFR`. -/
  TXFF : Nat

/-- Modelled from the spec: the memory-mapped register block behind `up->base`
(section 6, the layout itself is in the missing `pl011.h`).  `UDR`, `UFR` and
`MIS` hold the value the next read of that register returns, `IMSC` is an
ordinary read/write register, and `sent` lists the values written to the data
register, oldest first. -/
structure Regs where
  UDR : Nat
  UFR : Nat
  IMSC : Nat
  MIS : Nat
  sent : List Nat

/-- Modelled from the spec: the port control block `UART` (section 3, the C
declaration is in the missing `pl011.h`).  The arrays `inbuf` and `outbuf` are
maps from index to byte; an access is legal only at an index in
`[0, SBUFSIZE)` and the functions below check that at each access. -/
structure UART where
  base : Regs
  inbuf : Int → Nat
  indata : Int
  inroom : Int
  inhead : Int
  intail : Int
  outbuf : Int → Nat
  outdata : Int
  outroom : Int
  outhead : Int
  outtail : Int
  txon : Int

/-- Why a call does not return. -/
inductive Halt where
  /-- A busy-wait whose condition holds at entry: `while(up->indata <= 0);`
  or `while(*(up->base + UFR) & TXFF);`. -/
  | spin
  /-- The `while(1);` of `uart_handler`. -/
  | dead
  /-- An array access at an index outside `[0, SBUFSIZE)`. -/
  | bounds
  deriving DecidableEq, Repr

/-- Result of a call: the returned value, or the reason the call does not
return together with the port state it is stuck in. -/
abbrev Run (α : Type) := Except (Halt × UART) α

/-- Legal index of `inbuf` and `outbuf`. -/
def inRange (k : Config) (i : Int) : Prop := 0 ≤ i ∧ i < (k.SBUFSIZE : Int)

instance (k : Config) (i : Int) : Decidable (inRange k i) := by
  unfold inRange; infer_instance

/-! ## Receive interrupt: `do_rx` -/

/-- Source `do_rx`, lines 8-21. -/
def do_rx (k : Config) (up : UART) : Run UART :=
  -- c = *(up->base + UDR);
  let c := up.base.UDR % 256
  if inRange k up.inhead then
    -- up->inbuf[up->inhead++] = c;
    let up1 := { up with inbuf := Function.update up.inbuf up.inhead c,
                         inhead := up.inhead + 1 }
    -- up->inhead %= SBUFSIZE;
    let up2 := { up1 with inhead := Int.tmod up1.inhead k.SBUFSIZE }
    -- up->indata++;
    let up3 := { up2 with indata := up2.indata + 1 }
    -- up->inroom--;
    .ok { up3 with inroom := up3.inroom - 1 }
  else
    .error (.bounds, up)

/-! ## Transmit interrupt: `do_tx` -/

/-- The empty-buffer branch of `do_tx`, lines 39-41. -/
def do_tx_idle (k : Config) (up : UART) : UART :=
  -- *(up->base + IMSC) = RX_BIT;
  let up1 := { up with base := { up.base with IMSC := k.RX_BIT } }
  -- up->txon = 0;
  { up1 with txon := 0 }

/-- The drain branch of `do_tx`, lines 58-68, at a legal `outtail`. -/
def do_tx_drain (k : Config) (up : UART) : UART :=
  -- c = up->outbuf[up->outtail++];
  let c := up.outbuf up.outtail
  let up1 := { up with outtail := up.outtail + 1 }
  -- up->outtail %= SBUFSIZE;
  let up2 := { up1 with outtail := Int.tmod up1.outtail k.SBUFSIZE }
  -- *(up->base + UDR) = (u32)c;
  let up3 := { up2 with base := { up2.base with sent := up2.base.sent ++ [c] } }
  -- up->outdata--;
  let up4 := { up3 with outdata := up3.outdata - 1 }
  -- up->outroom++;
  { up4 with outroom := up4.outroom + 1 }

/-- Source `do_tx`, lines 26-69. -/
def do_tx (k : Config) (up : UART) : Run UART :=
  if up.outdata ≤ 0 then
    .ok (do_tx_idle k up)
  else if inRange k up.outtail then
    .ok (do_tx_drain k up)
  else
    .error (.bounds, up)

/-! ## Dispatcher: `uart_handler` -/

/-- Source `uart_handler`, lines 71-86. -/
def uart_handler (k : Config) (up : UART) : Run UART :=
  -- u8 mis = *(up->base + MIS);
  let mis := up.base.MIS % 256
  if mis &&& k.RX_BIT ≠ 0 then
    do_rx k up
  else if mis &&& k.TX_BIT ≠ 0 then
    do_tx k up
  else
    -- while(1);
    .error (.dead, up)

/-! ## Blocking read: `ugetc` -/

/-- Line 121: `up->intail++`. -/
def ugetc_s1 (up : UART) : UART := { up with intail := up.intail + 1 }

/-- Line 122: `up->intail %= SBUFSIZE`. -/
def ugetc_s2 (k : Config) (up : UART) : UART :=
  { up with intail := Int.tmod up.intail k.SBUFSIZE }

/-- Line 123: `up->indata--`. -/
def ugetc_s3 (up : UART) : UART := { up with indata := up.indata - 1 }

/-- Line 124: `up->inroom++`. -/
def ugetc_s4 (up : UART) : UART := { up with inroom := up.inroom + 1 }

/-- Source `ugetc`, lines 92-127. -/
def ugetc (k : Config) (up : UART) : Run (Nat × UART) :=
  -- while(up->indata <= 0);
  if up.indata ≤ 0 then
    .error (.spin, up)
  else if inRange k up.intail then
    -- c = up->inbuf[up->intail];
    let c := up.inbuf up.intail
    .ok (c, ugetc_s4 (ugetc_s3 (ugetc_s2 k (ugetc_s1 up))))
  else
    .error (.bounds, up)

/-! ## Write: `uputc` -/

/-- Line 143: `up->outbuf[up->outhead] = c`, at a legal `outhead`. -/
def uputc_b0 (up : UART) (c : Nat) : UART :=
  { up with outbuf := Function.update up.outbuf up.outhead c }

/-- Line 145: `up->outhead++`. -/
def uputc_b1 (up : UART) : UART := { up with outhead := up.outhead + 1 }

/-- Line 146: `up->outhead %= SBUFSIZE`. -/
def uputc_b2 (k : Config) (up : UART) : UART :=
  { up with outhead := Int.tmod up.outhead k.SBUFSIZE }

/-- Line 147: `up->outdata++`. -/
def uputc_b3 (up : UART) : UART := { up with outdata := up.outdata + 1 }

/-- Line 148: `up->outroom--`. -/
def uputc_b4 (up : UART) : UART := { up with outroom := up.outroom - 1 }

/-- Line 170: `up->txon = 1`. -/
def uputc_d1 (up : UART) : UART := { up with txon := 1 }

/-- Line 172: `*(up->base + IMSC) |= (RX_BIT | TX_BIT)`. -/
def uputc_d2 (k : Config) (up : UART) : UART :=
  { up with base := { up.base with IMSC := up.base.IMSC ||| (k.RX_BIT ||| k.TX_BIT) } }

/-- Line 184: `*(up->base + UDR) = (u32)c`. -/
def uputc_d3 (up : UART) (c : Nat) : UART :=
  { up with base := { up.base with sent := up.base.sent ++ [c] } }

/-- Source `uputc`, lines 129-186. -/
def uputc (k : Config) (up : UART) (c : Nat) : Run UART :=
  if up.txon ≠ 0 then
    if inRange k up.outhead then
      .ok (uputc_b4 (uputc_b3 (uputc_b2 k (uputc_b1 (uputc_b0 up c)))))
    else
      .error (.bounds, up)
  -- while(*(up->base + UFR) & TXFF);
  else if up.base.UFR &&& k.TXFF ≠ 0 then
    .error (.spin, up)
  else
    .ok (uputc_d3 (uputc_d2 k (uputc_d1 up)) c)

/-! ## Line and string helpers: `ugets`, `uprints` -/

/-- What `ugets` leaves behind: the port, the caller's memory behind `s`
(a map from offset to byte), the final offset of the pointer `s`, and the
arguments of the `uputc` calls it made, oldest first. -/
structure Line where
  up : UART
  mem : Nat → Nat
  pos : Nat
  echo : List Nat

/-- Source `ugets`, lines 188-202.  `mem` is the memory behind the pointer `s`
and `pos` the offset `s` has reached; `echo` collects the arguments of the
`uputc` calls.  Every turn of the loop takes one byte out of the receive
buffer, so the loop is total on a port whose registers are frozen. -/
def ugets_loop (k : Config) (up : UART) (mem : Nat → Nat) (pos : Nat)
    (echo : List Nat) : Run Line :=
  -- (*s = ugetc(up))
  match h : ugetc k up with
  | .error e => .error e
  | .ok (c, up1) =>
    let mem1 := Function.update mem pos c
    -- != '\r'
    if c ≠ 13 then
      -- uputc(up, *s); s++;
      match h2 : uputc k up1 c with
      | .error e => .error e
      | .ok up2 => ugets_loop k up2 mem1 (pos + 1) (echo ++ [c])
    else
      -- uputc(up, '\n');
      match uputc k up1 10 with
      | .error e => .error e
      | .ok up2 =>
        -- uputc(up, '\r');
        match uputc k up2 13 with
        | .error e => .error e
        | .ok up3 =>
          -- *s++ = '\n'; *s++ = '\r'; *s = 0;
          let mem2 := Function.update mem1 pos 10
          let mem3 := Function.update mem2 (pos + 1) 13
          let mem4 := Function.update mem3 (pos + 2) 0
          .ok { up := up3, mem := mem4, pos := pos + 2, echo := echo ++ [10, 13] }
termination_by up.indata.toNat
decreasing_by
  have h1 : 0 < up.indata ∧ up1.indata = up.indata - 1 := by
    unfold ugetc at h
    split at h
    · cases h
    · split at h
      · cases h
        exact ⟨by omega, rfl⟩
      · cases h
  have h3 : up2.indata = up1.indata := by
    unfold uputc at h2
    split at h2
    · split at h2
      · cases h2; rfl
      · cases h2
    · split at h2
      · cases h2
      · cases h2; rfl
  omega

/-- Source `ugets`: the loop entered with the pointer at offset 0 of the
caller's memory and no `uputc` call made yet. -/
def ugets (k : Config) (up : UART) (mem : Nat → Nat) : Run Line :=
  ugets_loop k up mem 0 []

/-- Source `uprints`, lines 204-210.  The list is the memory behind the
pointer `s`; running off its end before a zero byte is an illegal access.  The
result is the port and the arguments of the `uputc` calls made, oldest
first. -/
def uprints (k : Config) (up : UART) : List Nat → Run (UART × List Nat)
  | [] => .error (.bounds, up)
  | b :: rest =>
    -- while(*s)
    if b = 0 then
      .ok (up, [])
    else
      -- uputc(up, *s++);
      match uputc k up b with
      | .error e => .error e
      | .ok up1 =>
        match uprints k up1 rest with
        | .error e => .error e
        | .ok (up2, calls) => .ok (up2, b :: calls)

/-! ## The port as a transition system -/

/-- The operations of the driver that act on a port. -/
inductive Op where
  | do_rx
  | do_tx
  | ugetc
  | uputc (c : Nat)
  | uart_handler

/-- One atomic call of an operation; the byte `ugetc` returns is dropped. -/
def step (k : Config) : Op → UART → Run UART
  | .do_rx, up => do_rx k up
  | .do_tx, up => do_tx k up
  | .ugetc, up => (ugetc k up).map Prod.snd
  | .uputc c, up => uputc k up c
  | .uart_handler, up => uart_handler k up

/-- The device changes what its read-only registers show: the received byte
in `UDR`, the flags in `UFR`, the interrupt status in `MIS`. -/
def deviceInput (up : UART) (udr ufr mis : Nat) : UART :=
  { up with base := { up.base with UDR := udr, UFR := ufr, MIS := mis } }

/-- States the port reaches from `up0`: by calls that return, with the device
free to change its read-only registers between two calls. -/
inductive Reachable (k : Config) (up0 : UART) : UART → Prop where
  | start : Reachable k up0 up0
  | call (op : Op) {up up1 : UART} :
      Reachable k up0 up → step k op up = .ok up1 → Reachable k up0 up1
  | device (udr ufr mis : Nat) {up : UART} :
      Reachable k up0 up → Reachable k up0 (deviceInput up udr ufr mis)

/-- Both counter pairs add up to the capacity. -/
def CountersOk (k : Config) (up : UART) : Prop :=
  up.indata + up.inroom = k.SBUFSIZE ∧ up.outdata + up.outroom = k.SBUFSIZE

/-- Initial counters: both buffers empty. -/
def CountersInit (k : Config) (up : UART) : Prop :=
  up.indata = 0 ∧ up.outdata = 0 ∧ up.inroom = k.SBUFSIZE ∧ up.outroom = k.SBUFSIZE

/-- A port at rest: registers cleared, buffers zeroed and empty, transmitter
idle.  Used as the concrete starting point of the examples. -/
def idlePort (k : Config) : UART :=
  { base := { UDR := 0, UFR := 0, IMSC := 0, MIS := 0, sent := [] }
    inbuf := fun _ => 0, indata := 0, inroom := k.SBUFSIZE, inhead := 0, intail := 0
    outbuf := fun _ => 0, outdata := 0, outroom := k.SBUFSIZE, outhead := 0, outtail := 0
    txon := 0 }

/-- The constants of the PL011 as commonly configured: 128-byte buffers,
receive and transmit interrupts at bits 4 and 5, `TXFF` at bit 5. -/
def pl011 : Config := { SBUFSIZE := 128, RX_BIT := 0x10, TX_BIT := 0x20, TXFF := 0x20 }

/-- A small configuration for worked examples: 4-byte buffers. -/
def tiny : Config := { SBUFSIZE := 4, RX_BIT := 0x10, TX_BIT := 0x20, TXFF := 0x20 }

/-- The ring `buf` with indices `head`, `tail` and counter `data`, of capacity
`N`, holds exactly the bytes `q`, oldest first: `tail` is a legal index, `data`
is the number of bytes, `head` is `data` places after `tail` around the ring,
and the byte `i` places after `tail` is the `i`-th of `q`. -/
def RingHolds (N : Nat) (buf : Int → Nat) (head tail data : Int) (q : List Nat) : Prop :=
  0 ≤ tail ∧ tail < (N : Int) ∧ data = (q.length : Int) ∧ q.length ≤ N ∧
  head = (tail + (q.length : Int)) % (N : Int) ∧
  ∀ i : Nat, i < q.length → q[i]? = some (buf ((tail + (i : Int)) % (N : Int)))

/-- The receive buffer holds exactly the unread bytes `q`, oldest first. -/
def RxHolds (k : Config) (up : UART) (q : List Nat) : Prop :=
  RingHolds k.SBUFSIZE up.inbuf up.inhead up.intail up.indata q ∧
  up.inroom = (k.SBUFSIZE : Int) - (q.length : Int)

/-- The transmit buffer holds exactly the unsent bytes `q`, oldest first. -/
def TxHolds (k : Config) (up : UART) (q : List Nat) : Prop :=
  RingHolds k.SBUFSIZE up.outbuf up.outhead up.outtail up.outdata q ∧
  up.outroom = (k.SBUFSIZE : Int) - (q.length : Int)

/-- Events of the receive path: the device presents the value `v` in its data
register and `do_rx` runs, or the caller runs `ugetc`. -/
inductive RxEv where
  | rx (v : Nat)
  | getc
  deriving DecidableEq, Repr

/-- The device presents `v` in the data register. -/
def present (up : UART) (v : Nat) : UART :=
  deviceInput up v up.base.UFR up.base.MIS

/-- Run a sequence of receive-path events; the result is the bytes the `ugetc`
calls returned, in order, and the final port. -/
def runRx (k : Config) : UART → List RxEv → Run (List Nat × UART)
  | up, [] => .ok ([], up)
  | up, .rx v :: es =>
    match do_rx k (present up v) with
    | .error e => .error e
    | .ok up1 => runRx k up1 es
  | up, .getc :: es =>
    match ugetc k up with
    | .error e => .error e
    | .ok (c, up1) =>
      match runRx k up1 es with
      | .error e => .error e
      | .ok (cs, up2) => .ok (c :: cs, up2)

/-- The side conditions of the FIFO property, checked along the run: `do_rx`
is never run with `inroom == 0`, `ugetc` only with `indata > 0`. -/
def RxAdmissible (k : Config) : UART → List RxEv → Prop
  | _, [] => True
  | up, .rx v :: es =>
    up.inroom ≠ 0 ∧
    match do_rx k (present up v) with
    | .error _ => True
    | .ok up1 => RxAdmissible k up1 es
  | up, .getc :: es =>
    0 < up.indata ∧
    match ugetc k up with
    | .error _ => True
    | .ok (_, up1) => RxAdmissible k up1 es

/-- The bytes `do_rx` read from the data register during the events, in
order: each register value narrowed to a `char`. -/
def rxBytes : List RxEv → List Nat
  | [] => []
  | .rx v :: es => v % 256 :: rxBytes es
  | .getc :: es => rxBytes es

/-- Number of `ugetc` calls among the events. -/
def getCount : List RxEv → Nat
  | [] => 0
  | .rx _ :: es => getCount es
  | .getc :: es => getCount es + 1

/-- Empty receive buffer, as the FIFO property assumes it at the start. -/
def RxEmpty (k : Config) (up : UART) : Prop :=
  up.inhead = up.intail ∧ up.indata = 0 ∧ up.inroom = k.SBUFSIZE

/-- A receive schedule for worked examples: two bytes arrive, one is read,
a third arrives, one more is read. -/
def rxDemo : List RxEv := [.rx 65, .rx 66, .getc, .rx 67, .getc]

/-- Events of the transmit path: the caller runs `uputc(c)`, the transmit
interrupt runs `do_tx`, or the device changes its flag register. -/
inductive TxEv where
  | put (c : Nat)
  | tx
  | flags (ufr : Nat)
  deriving DecidableEq, Repr

/-- Run a sequence of transmit-path events. -/
def runTx (k : Config) : UART → List TxEv → Run UART
  | up, [] => .ok up
  | up, .put c :: es =>
    match uputc k up c with
    | .error e => .error e
    | .ok up1 => runTx k up1 es
  | up, .tx :: es =>
    match do_tx k up with
    | .error e => .error e
    | .ok up1 => runTx k up1 es
  | up, .flags ufr :: es => runTx k (deviceInput up up.base.UDR ufr up.base.MIS) es

/-- The side conditions of the transmit FIFO property, checked along the run:
`TXFF` is clear whenever `uputc` runs in direct mode, and `uputc` never runs in
buffering mode with `outroom == 0`. -/
def TxAdmissible (k : Config) : UART → List TxEv → Prop
  | _, [] => True
  | up, .put c :: es =>
    (up.txon = 0 → up.base.UFR &&& k.TXFF = 0) ∧ (up.txon ≠ 0 → up.outroom ≠ 0) ∧
    match uputc k up c with
    | .error _ => True
    | .ok up1 => TxAdmissible k up1 es
  | up, .tx :: es =>
    match do_tx k up with
    | .error _ => True
    | .ok up1 => TxAdmissible k up1 es
  | up, .flags ufr :: es => TxAdmissible k (deviceInput up up.base.UDR ufr up.base.MIS) es

/-- The bytes passed to `uputc` during the events, in order. -/
def puts : List TxEv → List Nat
  | [] => []
  | .put c :: es => c :: puts es
  | .tx :: es => puts es
  | .flags _ :: es => puts es

/-- The contents of `outbuf` from `outtail` on, `outdata` bytes around the
ring. -/
def txPending (k : Config) (up : UART) : List Nat :=
  (List.range up.outdata.toNat).map
    (fun i : Nat => up.outbuf ((up.outtail + (i : Int)) % (k.SBUFSIZE : Int)))

/-- Idle port, as the transmit FIFO property assumes it at the start: `txon`
false and the transmit buffer empty. -/
def TxIdle (k : Config) (up : UART) : Prop :=
  up.txon = 0 ∧ up.outhead = up.outtail ∧ up.outdata = 0 ∧ up.outroom = k.SBUFSIZE

/-- A transmit schedule for worked examples. -/
def txDemo : List TxEv := [.put 65, .put 66, .put 67, .tx, .put 68, .tx, .tx, .tx, .tx, .put 69]

/-- A call wrote to the data register: the list of written values grew. -/
def wrote (up up1 : UART) : Bool := decide (up.base.sent.length < up1.base.sent.length)

/-- States of the transmit path together with the flag "a byte written to the
data register still awaits its transmit-complete interrupt".  A `uputc` that
writes to the data register raises the flag.  `do_tx` is the service of the
transmit-complete interrupt: it runs only with the flag up, the byte it was
raised for has then left the transmitter, and the flag stays up after it only
if `do_tx` wrote the next byte. -/
inductive TxReach (k : Config) (up0 : UART) : UART → Bool → Prop where
  | start : TxReach k up0 up0 false
  | put (c : Nat) {up up1 : UART} {f : Bool} :
      TxReach k up0 up f → uputc k up c = .ok up1 → TxReach k up0 up1 (f || wrote up up1)
  | tx {up up1 : UART} :
      TxReach k up0 up true → do_tx k up = .ok up1 → TxReach k up0 up1 (wrote up up1)
  | device (udr ufr mis : Nat) {up : UART} {f : Bool} :
      TxReach k up0 up f → TxReach k up0 (deviceInput up udr ufr mis) f

/-- The device delivers the values `vs` one after the other: each is
presented in the data register and collected by `do_rx`. -/
def deliver (k : Config) : UART → List Nat → Run UART
  | up, [] => .ok up
  | up, v :: vs =>
    match do_rx k (present up v) with
    | .error e => .error e
    | .ok up1 => deliver k up1 vs

/-- The memory `mem` after the bytes `xs` are stored from offset `pos` on. -/
def poke (mem : Nat → Nat) (pos : Nat) : List Nat → Nat → Nat
  | [] => mem
  | x :: xs => poke (Function.update mem pos x) (pos + 1) xs

/-- The transmit side lets `uputc` return: `outhead` is a legal index and,
if the transmitter is idle, `TXFF` is clear. -/
def TxReady (k : Config) (up : UART) : Prop :=
  inRange k up.outhead ∧ (up.txon = 0 → up.base.UFR &&& k.TXFF = 0)

/-- All four ring indices are legal. -/
def IndicesOk (k : Config) (up : UART) : Prop :=
  inRange k up.inhead ∧ inRange k up.intail ∧ inRange k up.outhead ∧ inRange k up.outtail

instance (k : Config) (up : UART) : Decidable (IndicesOk k up) := by
  unfold IndicesOk; infer_instance

/-- Run statements one after the other. -/
def runStmts (stmts : List (UART → UART)) (up : UART) : UART :=
  stmts.foldl (fun u f => f u) up

/-- The states a sequence of statements goes through: the state after the
first statement, after the second, and so on. -/
def traceStmts : List (UART → UART) → UART → List UART
  | [], _ => []
  | f :: fs, up => f up :: traceStmts fs (f up)

/-- The statements of the direct-mode path of `uputc(c)` after the busy-wait,
lines 170, 172 and 184, in source order. -/
def uputc_direct (k : Config) (c : Nat) : List (UART → UART) :=
  [uputc_d1, uputc_d2 k, fun u => uputc_d3 u c]

/-- The statements of the critical section of `ugetc`, lines 121-124, in
source order. -/
def ugetc_section (k : Config) : List (UART → UART) :=
  [ugetc_s1, ugetc_s2 k, ugetc_s3, ugetc_s4]

/-- Source `ugetc` with one complete `do_rx` run after the first `pos`
statements of its critical section (`pos = 0`: before the first one, `pos = 4`
or more: after the last one).  The byte is read at line 96, before the
section. -/
def ugetc_rx_at (k : Config) (pos : Nat) (up : UART) : Run (Nat × UART) :=
  if up.indata ≤ 0 then
    .error (.spin, up)
  else if inRange k up.intail then
    let c := up.inbuf up.intail
    match do_rx k (runStmts ((ugetc_section k).take pos) up) with
    | .error e => .error e
    | .ok up1 => .ok (c, runStmts ((ugetc_section k).drop pos) up1)
  else
    .error (.bounds, up)

/-- The points of the buffering path of `uputc` that lie outside its
`lock()`/`unlock()` region: after the test of `txon` at line 141, and after the
store to `outbuf[outhead]` at line 143. -/
inductive Preempt where
  | afterTest
  | afterStore
  deriving DecidableEq, Repr

/-- Source `uputc` with one complete `do_tx` run at the point `p` of its
buffering path.  The test of `txon` has been made before `do_tx` runs and is
not repeated.  On the direct-mode path the points are not reached. -/
def uputc_tx_at (k : Config) (p : Preempt) (up : UART) (c : Nat) : Run UART :=
  if up.txon ≠ 0 then
    match p with
    | .afterTest =>
      match do_tx k up with
      | .error e => .error e
      | .ok up1 =>
        if inRange k up1.outhead then
          .ok (uputc_b4 (uputc_b3 (uputc_b2 k (uputc_b1 (uputc_b0 up1 c)))))
        else
          .error (.bounds, up1)
    | .afterStore =>
      if inRange k up.outhead then
        match do_tx k (uputc_b0 up c) with
        | .error e => .error e
        | .ok up1 => .ok (uputc_b4 (uputc_b3 (uputc_b2 k (uputc_b1 up1))))
      else
        .error (.bounds, up)
  else
    uputc k up c

/-- `do_rx` collects the value `b` from the data register, then `ugetc`
runs. -/
def rx_then_getc (k : Config) (up : UART) (b : Nat) : Run (Nat × UART) :=
  match do_rx k (present up b) with
  | .error e => .error e
  | .ok up1 => ugetc k up1

/-- `ugetc` runs, then `do_rx` collects the value `b` from the data
register. -/
def getc_then_rx (k : Config) (up : UART) (b : Nat) : Run (Nat × UART) :=
  match ugetc k up with
  | .error e => .error e
  | .ok (c, up1) =>
    match do_rx k (present up1 b) with
    | .error e => .error e
    | .ok up2 => .ok (c, up2)

/-- The port right after `uputc(65)` on the port at rest: transmitter busy
with 65 in flight, transmit buffer empty. -/
def busyPort (k : Config) : UART := uputc_d3 (uputc_d2 k (uputc_d1 (idlePort k))) 65

/-- A 4-byte port whose receive buffer is full: it holds 10, 11, 12, 13, the
oldest at index 0, and the device presents 99. -/
def fullRxPort : UART :=
  { idlePort tiny with
    inbuf := fun i => 10 + i.toNat, indata := 4, inroom := 0,
    base := { (idlePort tiny).base with UDR := 99 } }

/-- A busy 4-byte port whose transmit buffer is full: it holds 10, 11, 12,
13, the oldest at index 0. -/
def fullTxPort : UART :=
  { idlePort tiny with outbuf := fun i => 10 + i.toNat, outdata := 4, outroom := 0, txon := 1 }

/-- A 4-byte port whose receive buffer holds one byte, 65, at index 0. -/
def oneByteRxPort : UART :=
  { idlePort tiny with inbuf := Function.update (fun _ => 0) 0 65,
                       indata := 1, inroom := 3, inhead := 1 }

/-- Events of the port: the device presents `v` and `do_rx` runs, the caller
runs `ugetc`, the caller runs `uputc(c)`, the transmit interrupt runs
`do_tx`. -/
inductive PortEv where
  | rx (v : Nat)
  | getc
  | put (c : Nat)
  | tx
  deriving DecidableEq, Repr

/-- Run a sequence of port events; the byte `ugetc` returns is dropped. -/
def runPort (k : Config) : UART → List PortEv → Run UART
  | up, [] => .ok up
  | up, .rx v :: es =>
    match do_rx k (present up v) with
    | .error e => .error e
    | .ok up1 => runPort k up1 es
  | up, .getc :: es =>
    match ugetc k up with
    | .error e => .error e
    | .ok (_, up1) => runPort k up1 es
  | up, .put c :: es =>
    match uputc k up c with
    | .error e => .error e
    | .ok up1 => runPort k up1 es
  | up, .tx :: es =>
    match do_tx k up with
    | .error e => .error e
    | .ok up1 => runPort k up1 es

/-- No push on a full buffer along the run: `do_rx` never runs with
`inroom == 0` and `uputc` never runs in buffering mode with `outroom == 0`. -/
def NoOverflow (k : Config) : UART → List PortEv → Prop
  | _, [] => True
  | up, .rx v :: es =>
    up.inroom ≠ 0 ∧
    match do_rx k (present up v) with
    | .error _ => True
    | .ok up1 => NoOverflow k up1 es
  | up, .getc :: es =>
    match ugetc k up with
    | .error _ => True
    | .ok (_, up1) => NoOverflow k up1 es
  | up, .put c :: es =>
    (up.txon ≠ 0 → up.outroom ≠ 0) ∧
    match uputc k up c with
    | .error _ => True
    | .ok up1 => NoOverflow k up1 es
  | up, .tx :: es =>
    match do_tx k up with
    | .error _ => True
    | .ok up1 => NoOverflow k up1 es

/-- Each counter is the number of bytes between tail and head: it lies in
`[0, SBUFSIZE]` and is congruent to `head - tail` modulo `SBUFSIZE`. -/
def CountMatches (k : Config) (up : UART) : Prop :=
  (0 ≤ up.indata ∧ up.indata ≤ (k.SBUFSIZE : Int) ∧
    (k.SBUFSIZE : Int) ∣ up.indata - (up.inhead - up.intail)) ∧
  (0 ≤ up.outdata ∧ up.outdata ≤ (k.SBUFSIZE : Int) ∧
    (k.SBUFSIZE : Int) ∣ up.outdata - (up.outhead - up.outtail))

/-- The receive side is sound: its ring holds a list of `indata` unread
bytes, or its indices are illegal and it is empty. -/
def RxSide (k : Config) (up : UART) : Prop :=
  (∃ q, RxHolds k up q) ∨
  (up.indata = 0 ∧ up.inhead = up.intail ∧ ¬ inRange k up.inhead)

/-- The transmit side is sound: its ring holds a list of `outdata` unsent
bytes, or its indices are illegal and it is empty. -/
def TxSide (k : Config) (up : UART) : Prop :=
  (∃ q, TxHolds k up q) ∨
  (up.outdata = 0 ∧ up.outhead = up.outtail ∧ ¬ inRange k up.outhead)

/-- Five bytes arrive at the 4-byte port. -/
def rxFlood : List PortEv := [.rx 1, .rx 2, .rx 3, .rx 4, .rx 5]

/-- A schedule without overflow using all four operations. -/
def portDemo : List PortEv := [.rx 65, .put 65, .rx 66, .getc, .put 66, .put 67, .tx]

/-! ## C1: the counter invariant -/

theorem do_rx_counters {k : Config} {up up1 : UART} (h : do_rx k up = .ok up1) :
    up1.indata = up.indata + 1 ∧ up1.inroom = up.inroom - 1 ∧
    up1.outdata = up.outdata ∧ up1.outroom = up.outroom := by
  unfold do_rx at h
  split at h
  · cases h; exact ⟨rfl, rfl, rfl, rfl⟩
  · cases h

theorem do_tx_counters {k : Config} {up up1 : UART} (h : do_tx k up = .ok up1) :
    up1.indata = up.indata ∧ up1.inroom = up.inroom ∧
    up1.outdata + up1.outroom = up.outdata + up.outroom := by
  unfold do_tx at h
  split at h
  · cases h; exact ⟨rfl, rfl, rfl⟩
  · split at h
    · cases h
      refine ⟨rfl, rfl, ?_⟩
      show up.outdata - 1 + (up.outroom + 1) = up.outdata + up.outroom
      omega
    · cases h

theorem ugetc_counters {k : Config} {up up1 : UART} {c : Nat}
    (h : ugetc k up = .ok (c, up1)) :
    up1.indata = up.indata - 1 ∧ up1.inroom = up.inroom + 1 ∧
    up1.outdata = up.outdata ∧ up1.outroom = up.outroom := by
  unfold ugetc at h
  split at h
  · cases h
  · split at h
    · cases h; exact ⟨rfl, rfl, rfl, rfl⟩
    · cases h

theorem uputc_counters {k : Config} {up up1 : UART} {c : Nat}
    (h : uputc k up c = .ok up1) :
    up1.indata = up.indata ∧ up1.inroom = up.inroom ∧
    up1.outdata + up1.outroom = up.outdata + up.outroom := by
  unfold uputc at h
  split at h
  · split at h
    · cases h
      refine ⟨rfl, rfl, ?_⟩
      show up.outdata + 1 + (up.outroom - 1) = up.outdata + up.outroom
      omega
    · cases h
  · split at h
    · cases h
    · cases h; exact ⟨rfl, rfl, rfl⟩

theorem step_counters {k : Config} {op : Op} {up up1 : UART}
    (h : step k op up = .ok up1) :
    up1.indata + up1.inroom = up.indata + up.inroom ∧
    up1.outdata + up1.outroom = up.outdata + up.outroom := by
  cases op with
  | do_rx =>
    obtain ⟨h1, h2, h3, h4⟩ := do_rx_counters h
    constructor <;> omega
  | do_tx =>
    obtain ⟨h1, h2, h3⟩ := do_tx_counters h
    constructor <;> omega
  | ugetc =>
    simp only [step] at h
    cases hg : ugetc k up with
    | error e => rw [hg] at h; cases h
    | ok r =>
      obtain ⟨c, u⟩ := r
      rw [hg] at h
      cases h
      obtain ⟨h1, h2, h3, h4⟩ := ugetc_counters hg
      show u.indata + u.inroom = up.indata + up.inroom ∧
        u.outdata + u.outroom = up.outdata + up.outroom
      constructor <;> omega
  | uputc c =>
    obtain ⟨h1, h2, h3⟩ := uputc_counters h
    constructor <;> omega
  | uart_handler =>
    simp only [step, uart_handler] at h
    split at h
    · obtain ⟨h1, h2, h3, h4⟩ := do_rx_counters h
      constructor <;> omega
    · split at h
      · obtain ⟨h1, h2, h3⟩ := do_tx_counters h
        constructor <;> omega
      · cases h

/-- C1.  Counter invariant.  A call of `do_rx`, `do_tx`, `ugetc`, `uputc` or
`uart_handler` that returns, made in a state with
`indata + inroom = SBUFSIZE` and `outdata + outroom = SBUFSIZE`, ends in a
state with both equalities; hence both hold in every state reachable from a
state with `indata = outdata = 0` and `inroom = outroom = SBUFSIZE`. -/
theorem counter_invariant (k : Config) (up : UART) :
    (CountersOk k up → ∀ op up1, step k op up = .ok up1 → CountersOk k up1) ∧
    (CountersInit k up → ∀ up1, Reachable k up up1 → CountersOk k up1) := by
  constructor
  · intro h op up1 hs
    obtain ⟨h1, h2⟩ := step_counters hs
    exact ⟨by rw [h1]; exact h.1, by rw [h2]; exact h.2⟩
  · intro h up1 hr
    induction hr with
    | start =>
      obtain ⟨a, b, c, d⟩ := h
      exact ⟨by rw [a, c]; simp, by rw [b, d]; simp⟩
    | call op _ hs ih =>
      obtain ⟨h1, h2⟩ := step_counters hs
      exact ⟨by rw [h1]; exact ih.1, by rw [h2]; exact ih.2⟩
    | device udr ufr mis _ ih => exact ih

/-- C1 at a concrete port: the first `uputc` on the port at rest returns, and
the state it leaves, reachable from the start, has both counter pairs adding
up to the capacity. -/
theorem counter_invariant_witness :
    CountersOk tiny (idlePort tiny) ∧ CountersInit tiny (idlePort tiny) ∧
    step tiny (.uputc 65) (idlePort tiny)
      = .ok (uputc_d3 (uputc_d2 tiny (uputc_d1 (idlePort tiny))) 65) ∧
    CountersOk tiny (uputc_d3 (uputc_d2 tiny (uputc_d1 (idlePort tiny))) 65) ∧
    CountersOk tiny (deviceInput (uputc_d3 (uputc_d2 tiny (uputc_d1 (idlePort tiny))) 65) 66 0 16) :=
  ⟨⟨rfl, rfl⟩, ⟨rfl, rfl, rfl, rfl⟩, rfl,
   (counter_invariant tiny (idlePort tiny)).1 ⟨rfl, rfl⟩ (.uputc 65) _ rfl,
   (counter_invariant tiny (idlePort tiny)).2 ⟨rfl, rfl, rfl, rfl⟩ _
     (.device 66 0 16 (.call (.uputc 65) .start rfl))⟩

/-! ## Ring arithmetic -/

theorem tmod_succ (N : Nat) (x : Int) (h0 : 0 ≤ x) :
    Int.tmod (x + 1) N = (x + 1) % (N : Int) := by
  apply Int.tmod_eq_emod
  · omega
  · exact Int.ofNat_nonneg N

theorem ring_offset_inj (N : Nat) (t : Int) (i j : Nat) (hi : i < N) (hj : j < N)
    (h : (t + (i : Int)) % (N : Int) = (t + (j : Int)) % (N : Int)) : i = j := by
  have h1 := (Int.emod_eq_emod_iff_emod_sub_eq_zero).1 h
  have h2 : (N : Int) ∣ ((i : Int) - j) := by
    have h3 := Int.dvd_of_emod_eq_zero h1
    have e : (t + i - (t + j) : Int) = i - j := by ring
    rwa [e] at h3
  obtain ⟨c, hc⟩ := h2
  have hN : (0 : Int) < N := by omega
  have hc0 : c = 0 := by
    by_contra hne
    rcases lt_or_gt_of_ne hne with hlt | hgt
    · have h4 : (N : Int) * c ≤ (N : Int) * (-1) :=
        Int.mul_le_mul_of_nonneg_left (by omega) (by omega)
      omega
    · have h4 : (N : Int) * 1 ≤ (N : Int) * c :=
        Int.mul_le_mul_of_nonneg_left (by omega) (by omega)
      omega
  subst hc0
  simp at hc
  omega

theorem ring_head_range {N : Nat} {buf : Int → Nat} {head tail data : Int} {q : List Nat}
    (h : RingHolds N buf head tail data q) : 0 ≤ head ∧ head < (N : Int) := by
  obtain ⟨h0, h1, _, _, h4, _⟩ := h
  have hN : (0 : Int) < N := by omega
  rw [h4]
  exact ⟨Int.emod_nonneg _ (by omega), Int.emod_lt_of_pos _ hN⟩

theorem ring_empty {N : Nat} (buf : Int → Nat) (t : Int) (h0 : 0 ≤ t) (h1 : t < (N : Int)) :
    RingHolds N buf t t 0 [] := by
  refine ⟨h0, h1, rfl, Nat.zero_le _, ?_, ?_⟩
  · simp [Int.emod_eq_of_lt h0 h1]
  · intro i hi
    simp at hi

theorem ring_push {N : Nat} {buf : Int → Nat} {head tail data : Int} {q : List Nat}
    (h : RingHolds N buf head tail data q) (hroom : q.length < N) (c : Nat) :
    RingHolds N (Function.update buf head c) (Int.tmod (head + 1) N) tail (data + 1)
      (q ++ [c]) := by
  have hh := ring_head_range h
  obtain ⟨h0, h1, h2, h3, h4, h5⟩ := h
  refine ⟨h0, h1, ?_, ?_, ?_, ?_⟩
  · simp [h2]
  · simp; omega
  · rw [tmod_succ N head hh.1, h4, Int.emod_add_emod]
    congr 1
    simp
    ring
  · intro i hi
    simp at hi
    by_cases hlt : i < q.length
    · have hne : (tail + (i : Int)) % (N : Int) ≠ head := by
        rw [h4]
        intro e
        have := ring_offset_inj N tail i q.length (by omega) hroom e
        omega
      rw [List.getElem?_append_left hlt, Function.update_noteq hne]
      exact h5 i hlt
    · have hi2 : i = q.length := by omega
      subst hi2
      rw [← h4, Function.update_same]
      simp

theorem ring_pop {N : Nat} {buf : Int → Nat} {head tail data : Int} {c : Nat} {q : List Nat}
    (h : RingHolds N buf head tail data (c :: q)) :
    buf tail = c ∧ RingHolds N buf head (Int.tmod (tail + 1) N) (data - 1) q := by
  obtain ⟨h0, h1, h2, h3, h4, h5⟩ := h
  have hN : (0 : Int) < N := by omega
  constructor
  · have h6 := h5 0 (by simp)
    simp [Int.emod_eq_of_lt h0 h1] at h6
    exact h6.symm
  · rw [tmod_succ N tail h0]
    refine ⟨Int.emod_nonneg _ (by omega), Int.emod_lt_of_pos _ hN, ?_, ?_, ?_, ?_⟩
    · simp at h2; omega
    · simp at h3; omega
    · rw [h4, Int.emod_add_emod]
      congr 1
      simp
      ring
    · intro i hi
      have h6 := h5 (i + 1) (by simp; omega)
      rw [Int.emod_add_emod]
      have e : tail + 1 + (i : Int) = tail + ((i + 1 : Nat) : Int) := by
        push_cast; ring
      rw [e, ← h6]
      simp

/-! ## C2: the receive path is a FIFO -/

theorem do_rx_holds {k : Config} {up : UART} {q : List Nat} (h : RxHolds k up q)
    (hroom : up.inroom ≠ 0) :
    ∃ up1, do_rx k up = .ok up1 ∧ RxHolds k up1 (q ++ [up.base.UDR % 256]) := by
  obtain ⟨hr, hroom2⟩ := h
  have hlen : q.length < k.SBUFSIZE := by
    have := hr.2.2.2.1
    omega
  have hh := ring_head_range hr
  unfold do_rx
  rw [if_pos (show inRange k up.inhead from hh)]
  refine ⟨_, rfl, ?_, ?_⟩
  · exact ring_push hr hlen (up.base.UDR % 256)
  · show up.inroom - 1 = (k.SBUFSIZE : Int) - ((q ++ [up.base.UDR % 256]).length : Int)
    simp
    omega

theorem ugetc_holds {k : Config} {up : UART} {c : Nat} {q : List Nat}
    (h : RxHolds k up (c :: q)) :
    ∃ up1, ugetc k up = .ok (c, up1) ∧ RxHolds k up1 q := by
  obtain ⟨hr, hroom⟩ := h
  obtain ⟨hc, hr1⟩ := ring_pop hr
  have hd : ¬ up.indata ≤ 0 := by
    have := hr.2.2.1
    simp at this
    omega
  unfold ugetc
  rw [if_neg hd, if_pos (show inRange k up.intail from ⟨hr.1, hr.2.1⟩), hc]
  refine ⟨_, rfl, ?_, ?_⟩
  · exact hr1
  · show up.inroom + 1 = (k.SBUFSIZE : Int) - (q.length : Int)
    simp at hroom
    omega

theorem runRx_holds (k : Config) (evs : List RxEv) :
    ∀ (up : UART) (q : List Nat), RxHolds k up q → RxAdmissible k up evs →
      ∃ outs up1, runRx k up evs = .ok (outs, up1) ∧
        outs = (q ++ rxBytes evs).take (getCount evs) ∧ outs.length = getCount evs := by
  induction evs with
  | nil =>
    intro up q _ _
    exact ⟨[], up, rfl, by simp [getCount], rfl⟩
  | cons e es ih =>
    intro up q hq ha
    cases e with
    | rx v =>
      obtain ⟨hroom, ha1⟩ := ha
      have hq1 : RxHolds k (present up v) q := hq
      obtain ⟨up1, hdo, hq2⟩ := do_rx_holds hq1 hroom
      rw [hdo] at ha1
      obtain ⟨outs, up2, hrun, ho, hl⟩ := ih up1 _ hq2 ha1
      refine ⟨outs, up2, ?_, ?_, hl⟩
      · simp only [runRx, hdo]
        exact hrun
      · rw [ho]
        simp [rxBytes, getCount, present, deviceInput]
    | getc =>
      obtain ⟨hpos, ha1⟩ := ha
      cases q with
      | nil =>
        have := hq.1.2.2.1
        simp at this
        omega
      | cons c q =>
        obtain ⟨up1, hget, hq2⟩ := ugetc_holds hq
        rw [hget] at ha1
        obtain ⟨outs, up2, hrun, ho, hl⟩ := ih up1 _ hq2 ha1
        refine ⟨c :: outs, up2, ?_, ?_, ?_⟩
        · simp only [runRx, hget, hrun]
        · rw [ho]
          simp [rxBytes, getCount]
        · simp [getCount, hl]

/-- C2.  Receive FIFO.  Start from an empty receive buffer (`inhead == intail`,
`indata == 0`, `inroom == SBUFSIZE`) and run any sequence of `do_rx` and
`ugetc` calls in which `do_rx` never runs with `inroom == 0` and `ugetc` only
with `indata > 0`.  If the run returns, the bytes the `k` calls of `ugetc`
returned are, in order, the first `k` bytes `do_rx` read from the data
register; and the run does return when the common index is a legal one. -/
theorem rx_fifo (k : Config) (up : UART) (evs : List RxEv)
    (hempty : RxEmpty k up) (hadm : RxAdmissible k up evs) :
    (∀ outs up1, runRx k up evs = .ok (outs, up1) →
      outs = (rxBytes evs).take (getCount evs) ∧ outs.length = getCount evs) ∧
    (inRange k up.intail → ∃ outs up1, runRx k up evs = .ok (outs, up1)) := by
  obtain ⟨e1, e2, e3⟩ := hempty
  by_cases hin : inRange k up.intail
  · have hq : RxHolds k up [] := by
      refine ⟨?_, by simp [e3]⟩
      rw [e1, e2]
      exact ring_empty up.inbuf up.intail hin.1 hin.2
    obtain ⟨outs, up1, hrun, ho, hl⟩ := runRx_holds k evs up [] hq hadm
    refine ⟨?_, fun _ => ⟨outs, up1, hrun⟩⟩
    intro outs2 up2 hrun2
    rw [hrun] at hrun2
    cases hrun2
    exact ⟨by simpa using ho, hl⟩
  · refine ⟨?_, fun h => absurd h hin⟩
    intro outs up1 hrun
    cases evs with
    | nil =>
      simp only [runRx] at hrun
      cases hrun
      exact ⟨rfl, rfl⟩
    | cons e es =>
      cases e with
      | rx v =>
        have hf : do_rx k (present up v) = .error (.bounds, present up v) := by
          unfold do_rx
          rw [if_neg]
          show ¬ inRange k up.inhead
          rw [e1]; exact hin
        simp only [runRx, hf] at hrun
        cases hrun
      | getc =>
        have := hadm.1
        omega

/-- C2 on the 4-byte port at rest with the schedule `rxDemo`: the two `ugetc`
calls return 65 and 66, the first two bytes received. -/
theorem rx_fifo_witness :
    RxEmpty tiny (idlePort tiny) ∧ RxAdmissible tiny (idlePort tiny) rxDemo ∧
    inRange tiny (idlePort tiny).intail ∧
    (runRx tiny (idlePort tiny) rxDemo).toOption.map Prod.fst = some [65, 66] := by
  have he : RxEmpty tiny (idlePort tiny) := ⟨rfl, rfl, rfl⟩
  have ha : RxAdmissible tiny (idlePort tiny) rxDemo := by
    refine ⟨by decide, ⟨by decide, ⟨by decide, ⟨by decide, ⟨by decide, trivial⟩⟩⟩⟩⟩
  have hin : inRange tiny (idlePort tiny).intail := by decide
  refine ⟨he, ha, hin, ?_⟩
  obtain ⟨h1, h2⟩ := rx_fifo tiny (idlePort tiny) rxDemo he ha
  obtain ⟨outs, up1, hrun⟩ := h2 hin
  have h3 := (h1 outs up1 hrun).1
  rw [hrun, h3]
  rfl

/-! ## C3: the transmit path is a FIFO -/

theorem txPending_of_holds {k : Config} {up : UART} {q : List Nat} (h : TxHolds k up q) :
    txPending k up = q := by
  obtain ⟨⟨_, _, h2, _, _, h5⟩, _⟩ := h
  apply List.ext_getElem?
  intro i
  unfold txPending
  rw [h2, Int.toNat_ofNat, List.getElem?_map]
  by_cases hi : i < q.length
  · rw [h5 i hi, List.getElem?_range hi]
    rfl
  · rw [List.getElem?_eq_none (by simpa using hi), List.getElem?_eq_none (by simpa using hi)]
    rfl

theorem uputc_buffer_holds {k : Config} {up : UART} {q : List Nat} (c : Nat)
    (h : TxHolds k up q) (hon : up.txon ≠ 0) (hroom : up.outroom ≠ 0) :
    ∃ up1, uputc k up c = .ok up1 ∧ TxHolds k up1 (q ++ [c]) ∧
      up1.txon = up.txon ∧ up1.base = up.base := by
  obtain ⟨hr, hroom2⟩ := h
  have hlen : q.length < k.SBUFSIZE := by
    have := hr.2.2.2.1
    omega
  have hh := ring_head_range hr
  unfold uputc
  rw [if_pos hon, if_pos (show inRange k up.outhead from hh)]
  refine ⟨_, rfl, ⟨?_, ?_⟩, rfl, rfl⟩
  · exact ring_push hr hlen c
  · show up.outroom - 1 = (k.SBUFSIZE : Int) - ((q ++ [c]).length : Int)
    simp
    omega

theorem uputc_direct_eq {k : Config} {up : UART} (c : Nat)
    (hoff : up.txon = 0) (hff : up.base.UFR &&& k.TXFF = 0) :
    uputc k up c = .ok (uputc_d3 (uputc_d2 k (uputc_d1 up)) c) := by
  unfold uputc
  rw [if_neg (by simp [hoff]), if_neg (by simp [hff])]

theorem do_tx_drain_holds {k : Config} {up : UART} {c : Nat} {q : List Nat}
    (h : TxHolds k up (c :: q)) :
    ∃ up1, do_tx k up = .ok up1 ∧ TxHolds k up1 q ∧
      up1.txon = up.txon ∧ up1.base.sent = up.base.sent ++ [c] := by
  obtain ⟨hr, hroom⟩ := h
  obtain ⟨hc, hr1⟩ := ring_pop hr
  have hd : ¬ up.outdata ≤ 0 := by
    have := hr.2.2.1
    simp at this
    omega
  unfold do_tx
  rw [if_neg hd, if_pos (show inRange k up.outtail from ⟨hr.1, hr.2.1⟩)]
  refine ⟨_, rfl, ⟨hr1, ?_⟩, rfl, ?_⟩
  · show up.outroom + 1 = (k.SBUFSIZE : Int) - (q.length : Int)
    simp at hroom
    omega
  · show up.base.sent ++ [up.outbuf up.outtail] = up.base.sent ++ [c]
    rw [hc]

theorem runTx_holds (k : Config) (evs : List TxEv) :
    ∀ (up : UART) (q : List Nat), TxHolds k up q → (up.txon = 0 → q = []) →
      TxAdmissible k up evs →
      ∃ up1 w q1, runTx k up evs = .ok up1 ∧ TxHolds k up1 q1 ∧
        up1.base.sent = up.base.sent ++ w ∧ w ++ q1 = q ++ puts evs := by
  induction evs with
  | nil =>
    intro up q hq _ _
    exact ⟨up, [], q, rfl, hq, by simp, by simp [puts]⟩
  | cons e es ih =>
    intro up q hq hidle ha
    cases e with
    | put c =>
      obtain ⟨hff, hroom, ha1⟩ := ha
      by_cases hon : up.txon = 0
      · have hq0 := hidle hon
        subst hq0
        have hdo := uputc_direct_eq (k := k) c hon (hff hon)
        rw [hdo] at ha1
        have hq1 : TxHolds k (uputc_d3 (uputc_d2 k (uputc_d1 up)) c) [] := hq
        obtain ⟨up1, w, q1, hrun, hq2, hs, hw⟩ :=
          ih _ [] hq1 (fun h => by simp [uputc_d3, uputc_d2, uputc_d1] at h) ha1
        refine ⟨up1, c :: w, q1, ?_, hq2, ?_, ?_⟩
        · simp only [runTx, hdo]
          exact hrun
        · rw [hs]
          simp [uputc_d3, uputc_d2, uputc_d1]
        · simp [puts] at hw ⊢
          exact hw
      · obtain ⟨up0, hdo, hq1, hton, hbase⟩ := uputc_buffer_holds c hq hon (hroom hon)
        rw [hdo] at ha1
        obtain ⟨up1, w, q1, hrun, hq2, hs, hw⟩ :=
          ih up0 _ hq1 (fun h => absurd (hton ▸ h) hon) ha1
        refine ⟨up1, w, q1, ?_, hq2, ?_, ?_⟩
        · simp only [runTx, hdo]
          exact hrun
        · rw [hs, hbase]
        · rw [hw]
          simp [puts]
    | tx =>
      cases q with
      | nil =>
        have hd : up.outdata ≤ 0 := by
          have := hq.1.2.2.1
          simp at this
          omega
        have hdo : do_tx k up = .ok (do_tx_idle k up) := by
          unfold do_tx
          rw [if_pos hd]
        simp only [TxAdmissible, hdo] at ha
        have hq1 : TxHolds k (do_tx_idle k up) [] := hq
        obtain ⟨up1, w, q1, hrun, hq2, hs, hw⟩ := ih _ [] hq1 (fun _ => rfl) ha
        refine ⟨up1, w, q1, ?_, hq2, ?_, ?_⟩
        · simp only [runTx, hdo]
          exact hrun
        · rw [hs]
          rfl
        · rw [hw]
          simp [puts]
      | cons c q =>
        have hon : up.txon ≠ 0 := fun h => by
          have := hidle h
          cases this
        obtain ⟨up0, hdo, hq1, hton, hsent⟩ := do_tx_drain_holds hq
        simp only [TxAdmissible, hdo] at ha
        obtain ⟨up1, w, q1, hrun, hq2, hs, hw⟩ :=
          ih up0 q hq1 (fun h => absurd (hton ▸ h) hon) ha
        refine ⟨up1, c :: w, q1, ?_, hq2, ?_, ?_⟩
        · simp only [runTx, hdo]
          exact hrun
        · rw [hs, hsent]
          simp
        · simp [puts] at hw ⊢
          exact hw
    | flags ufr =>
      simp only [TxAdmissible] at ha
      have hq1 : TxHolds k (deviceInput up up.base.UDR ufr up.base.MIS) q := hq
      obtain ⟨up1, w, q1, hrun, hq2, hs, hw⟩ := ih _ q hq1 hidle ha
      refine ⟨up1, w, q1, ?_, hq2, ?_, ?_⟩
      · simp only [runTx]
        exact hrun
      · rw [hs]
        rfl
      · rw [hw]
        simp [puts]

theorem runTx_no_buffer (k : Config) (evs : List TxEv) :
    ∀ (up up1 : UART), ¬ inRange k up.outhead → up.outdata = 0 →
      runTx k up evs = .ok up1 →
      up1.outdata = 0 ∧ up1.base.sent = up.base.sent ++ puts evs := by
  induction evs with
  | nil =>
    intro up up1 _ hd hrun
    simp only [runTx] at hrun
    cases hrun
    exact ⟨hd, by simp [puts]⟩
  | cons e es ih =>
    intro up up1 hout hd hrun
    cases e with
    | put c =>
      simp only [runTx] at hrun
      unfold uputc at hrun
      by_cases hon : up.txon ≠ 0
      · rw [if_pos hon, if_neg hout] at hrun
        cases hrun
      · rw [if_neg hon] at hrun
        by_cases hff : up.base.UFR &&& k.TXFF ≠ 0
        · rw [if_pos hff] at hrun
          cases hrun
        · rw [if_neg hff] at hrun
          obtain ⟨h1, h2⟩ := ih _ up1 (by exact hout) (by exact hd) hrun
          refine ⟨h1, ?_⟩
          rw [h2]
          simp [uputc_d3, uputc_d2, uputc_d1, puts]
    | tx =>
      simp only [runTx] at hrun
      unfold do_tx at hrun
      rw [if_pos (by omega)] at hrun
      obtain ⟨h1, h2⟩ := ih _ up1 (by exact hout) (by exact hd) hrun
      refine ⟨h1, ?_⟩
      rw [h2]
      simp [do_tx_idle, puts]
    | flags ufr =>
      simp only [runTx] at hrun
      obtain ⟨h1, h2⟩ := ih _ up1 (by exact hout) (by exact hd) hrun
      refine ⟨h1, ?_⟩
      rw [h2]
      simp [deviceInput, puts]

/-- C3.  Transmit FIFO.  Start from an idle port (`txon` false, transmit
buffer empty) and run any sequence of atomic `uputc(c_1)`, `uputc(c_2)`, ...
calls interleaved with atomic `do_tx` calls, with `TXFF` clear whenever `uputc`
runs in direct mode and `uputc` never run in buffering mode with
`outroom == 0`.  If the run returns, the bytes written to the data register
are a leading part of `c_1, c_2, ...` and the bytes not yet written are the
contents of `outbuf` from `outtail` on, `outdata` of them; the run does return
when the common index is a legal one, and then `outhead` is `outdata` places
after `outtail`. -/
theorem tx_fifo (k : Config) (up : UART) (evs : List TxEv)
    (hidle : TxIdle k up) (hadm : TxAdmissible k up evs) :
    (∀ up1, runTx k up evs = .ok up1 →
      ∃ w, up1.base.sent = up.base.sent ++ w ∧ w <+: puts evs ∧
        w ++ txPending k up1 = puts evs) ∧
    (inRange k up.outtail →
      ∃ up1, runTx k up evs = .ok up1 ∧ TxHolds k up1 (txPending k up1)) := by
  obtain ⟨e0, e1, e2, e3⟩ := hidle
  by_cases hin : inRange k up.outtail
  · have hq : TxHolds k up [] := by
      refine ⟨?_, by simp [e3]⟩
      rw [e1, e2]
      exact ring_empty up.outbuf up.outtail hin.1 hin.2
    obtain ⟨up1, w, q1, hrun, hq1, hs, hw⟩ := runTx_holds k evs up [] hq (fun _ => rfl) hadm
    have hp := txPending_of_holds hq1
    simp only [List.nil_append] at hw
    refine ⟨?_, fun _ => ⟨up1, hrun, by rw [hp]; exact hq1⟩⟩
    intro up2 hrun2
    rw [hrun] at hrun2
    cases hrun2
    exact ⟨w, hs, ⟨q1, hw⟩, by rw [hp]; exact hw⟩
  · refine ⟨?_, fun h => absurd h hin⟩
    intro up1 hrun
    obtain ⟨h1, h2⟩ := runTx_no_buffer k evs up up1 (by rw [e1]; exact hin) e2 hrun
    have hp : txPending k up1 = [] := by
      unfold txPending
      rw [h1]
      rfl
    exact ⟨puts evs, h2, ⟨[], by simp⟩, by rw [hp]; simp⟩

/-- C3 on the 4-byte port at rest with the schedule `txDemo`: the run returns,
65, 66, 67, 68 have been written to the data register and 69, the byte of
the last `uputc`, too, since the transmitter had gone idle. -/
theorem tx_fifo_witness :
    TxIdle tiny (idlePort tiny) ∧ TxAdmissible tiny (idlePort tiny) txDemo ∧
    inRange tiny (idlePort tiny).outtail ∧
    (runTx tiny (idlePort tiny) txDemo).toOption.map (fun u => (u.base.sent, txPending tiny u))
      = some ([65, 66, 67, 68, 69], []) ∧
    (runTx tiny (idlePort tiny) (txDemo.take 5)).toOption.map
      (fun u => (u.base.sent, txPending tiny u)) = some ([65, 66], [67, 68]) := by
  have he : TxIdle tiny (idlePort tiny) := ⟨rfl, rfl, rfl, rfl⟩
  have ha : TxAdmissible tiny (idlePort tiny) txDemo := by
    refine ⟨by decide, by decide, ⟨by decide, by decide, ⟨by decide, by decide,
      ⟨by decide, by decide, ⟨by decide, by decide, trivial⟩⟩⟩⟩⟩
  have hin : inRange tiny (idlePort tiny).outtail := by decide
  refine ⟨he, ha, hin, ?_, rfl⟩
  obtain ⟨up1, hrun, _⟩ := (tx_fifo tiny (idlePort tiny) txDemo he ha).2 hin
  rw [hrun]
  have h2 : runTx tiny (idlePort tiny) txDemo = .ok up1 := hrun
  have h3 : (runTx tiny (idlePort tiny) txDemo).toOption.map
      (fun u => (u.base.sent, txPending tiny u)) = some ([65, 66, 67, 68, 69], []) := rfl
  rw [h2] at h3
  exact h3

/-! ## C4: `txon` tells whether the transmitter is at work -/

theorem txReach_inv (k : Config) (up0 up : UART) (f : Bool)
    (h0 : up0.txon = 0) (hd0 : up0.outdata = 0) (hr : TxReach k up0 up f) :
    0 ≤ up.outdata ∧ (up.txon = 0 ↔ (up.outdata = 0 ∧ f = false)) := by
  induction hr with
  | start => exact ⟨by omega, by simp [h0, hd0]⟩
  | @put c u u1 g _ hs ih =>
    obtain ⟨ih1, ih2⟩ := ih
    unfold uputc at hs
    by_cases hon : u.txon ≠ 0
    · rw [if_pos hon] at hs
      split at hs
      · cases hs
        refine ⟨?_, ?_⟩
        · show 0 ≤ u.outdata + 1
          omega
        · show u.txon = 0 ↔ (u.outdata + 1 = 0 ∧ (g || wrote u _) = false)
          constructor
          · intro h; exact absurd h hon
          · intro h; omega
      · cases hs
    · rw [if_neg hon] at hs
      split at hs
      · cases hs
      · cases hs
        refine ⟨ih1, ?_⟩
        show (1 : Int) = 0 ↔ (u.outdata = 0 ∧ (g || wrote u (uputc_d3 (uputc_d2 k (uputc_d1 u)) c)) = false)
        have hw : wrote u (uputc_d3 (uputc_d2 k (uputc_d1 u)) c) = true := by
          simp [wrote, uputc_d3, uputc_d2, uputc_d1]
        rw [hw]
        simp
  | @tx u u1 _ hs ih =>
    obtain ⟨ih1, ih2⟩ := ih
    unfold do_tx at hs
    by_cases hd : u.outdata ≤ 0
    · rw [if_pos hd] at hs
      cases hs
      refine ⟨ih1, ?_⟩
      show (0 : Int) = 0 ↔ (u.outdata = 0 ∧ wrote u (do_tx_idle k u) = false)
      have hw : wrote u (do_tx_idle k u) = false := by
        simp [wrote, do_tx_idle]
      rw [hw]
      simp
      omega
    · rw [if_neg hd] at hs
      split at hs
      · cases hs
        have hon : u.txon ≠ 0 := fun h => by
          have := ih2.1 h
          simp at this
        refine ⟨?_, ?_⟩
        · show 0 ≤ u.outdata - 1
          omega
        · show u.txon = 0 ↔ (u.outdata - 1 = 0 ∧ wrote u (do_tx_drain k u) = false)
          have hw : wrote u (do_tx_drain k u) = true := by
            simp [wrote, do_tx_drain]
          rw [hw]
          simp [hon]
      · cases hs
  | device udr ufr mis _ ih => exact ih

/-- C4.  Transmitter state invariant.  In every state reachable from the idle
port (`txon` false, transmit buffer empty, nothing in flight) by atomic `uputc`
calls and by `do_tx` calls that run when the byte last written has left the
transmitter, `txon` is false if and only if the transmit buffer is empty
(`outdata == 0`) and no byte written to the data register still awaits its
transmit-complete interrupt. -/
theorem txon_invariant (k : Config) (up0 up : UART) (f : Bool)
    (hidle : TxIdle k up0) (hr : TxReach k up0 up f) :
    up.txon = 0 ↔ (up.outdata = 0 ∧ f = false) :=
  (txReach_inv k up0 up f hidle.1 hidle.2.2.1 hr).2

/-- C4 on the 4-byte port at rest: after `uputc(65)` the transmitter is busy
with a byte in flight, and after the `do_tx` that follows it is idle again. -/
theorem txon_invariant_witness :
    TxIdle tiny (idlePort tiny) ∧
    ((uputc_d3 (uputc_d2 tiny (uputc_d1 (idlePort tiny))) 65).txon = 0 ↔
      ((uputc_d3 (uputc_d2 tiny (uputc_d1 (idlePort tiny))) 65).outdata = 0 ∧
        (false || wrote (idlePort tiny)
          (uputc_d3 (uputc_d2 tiny (uputc_d1 (idlePort tiny))) 65)) = false)) ∧
    ((do_tx_idle tiny (uputc_d3 (uputc_d2 tiny (uputc_d1 (idlePort tiny))) 65)).txon = 0 ↔
      ((do_tx_idle tiny (uputc_d3 (uputc_d2 tiny (uputc_d1 (idlePort tiny))) 65)).outdata = 0 ∧
        wrote (uputc_d3 (uputc_d2 tiny (uputc_d1 (idlePort tiny))) 65)
          (do_tx_idle tiny (uputc_d3 (uputc_d2 tiny (uputc_d1 (idlePort tiny))) 65)) = false)) :=
  ⟨⟨rfl, rfl, rfl, rfl⟩,
   txon_invariant tiny (idlePort tiny) _ _ ⟨rfl, rfl, rfl, rfl⟩ (.put 65 .start rfl),
   txon_invariant tiny (idlePort tiny) _ _ ⟨rfl, rfl, rfl, rfl⟩
     (.tx (.put 65 .start rfl) rfl)⟩

/-! ## Bit masks -/

theorem or_mask_left (x a b : Nat) : (x ||| (a ||| b)) &&& a = a := by
  apply Nat.eq_of_testBit_eq
  intro i
  simp only [Nat.testBit_and, Nat.testBit_or]
  cases x.testBit i <;> cases a.testBit i <;> cases b.testBit i <;> rfl

theorem or_mask_right (x a b : Nat) : (x ||| (a ||| b)) &&& b = b := by
  apply Nat.eq_of_testBit_eq
  intro i
  simp only [Nat.testBit_and, Nat.testBit_or]
  cases x.testBit i <;> cases a.testBit i <;> cases b.testBit i <;> rfl

theorem narrow_and (m b : Nat) (hb : b < 256) : (m % 256) &&& b = m &&& b := by
  apply Nat.eq_of_testBit_eq
  intro i
  have e : (256 : Nat) = 2 ^ 8 := by norm_num
  rw [Nat.testBit_and, Nat.testBit_and, e, Nat.testBit_mod_two_pow]
  by_cases hi : i < 8
  · simp [hi]
  · have hbi : b.testBit i = false := by
      apply Nat.testBit_eq_false_of_lt
      calc b < 2 ^ 8 := by omega
        _ ≤ 2 ^ i := Nat.pow_le_pow_right (by norm_num) (by omega)
    simp [hi, hbi]

/-! ## C5: one byte on an idle port -/

/-- C5.  Idle-to-busy-to-idle round trip.  On an idle port (`txon` false,
`outdata == 0`, `TXFF` clear) `uputc(c)` returns having written exactly `c` to
the data register, with `txon` true, `RX_BIT` and `TX_BIT` set in `IMSC`, and
the buffers, indices and counters as they were.  The `do_tx` that follows
returns having written nothing, with `txon` false and `IMSC` equal to
`RX_BIT`: the receive bit set and, the two masks being disjoint, the transmit
bit clear. -/
theorem idle_round_trip (k : Config) (up : UART) (c : Nat)
    (hoff : up.txon = 0) (hdata : up.outdata = 0) (hff : up.base.UFR &&& k.TXFF = 0) :
    ∃ up1 up2, uputc k up c = .ok up1 ∧
      up1 = { up with txon := 1,
                      base := { up.base with IMSC := up.base.IMSC ||| (k.RX_BIT ||| k.TX_BIT),
                                             sent := up.base.sent ++ [c] } } ∧
      up1.base.sent = up.base.sent ++ [c] ∧ up1.txon ≠ 0 ∧
      up1.base.IMSC &&& k.RX_BIT = k.RX_BIT ∧ up1.base.IMSC &&& k.TX_BIT = k.TX_BIT ∧
      do_tx k up1 = .ok up2 ∧
      up2 = { up1 with txon := 0, base := { up1.base with IMSC := k.RX_BIT } } ∧
      up2.base.sent = up1.base.sent ∧ up2.txon = 0 ∧
      up2.base.IMSC &&& k.RX_BIT = k.RX_BIT ∧
      (k.RX_BIT &&& k.TX_BIT = 0 → up2.base.IMSC &&& k.TX_BIT = 0) := by
  refine ⟨_, _, uputc_direct_eq c hoff hff, rfl, rfl, by simp [uputc_d3, uputc_d2, uputc_d1],
    or_mask_left _ _ _, or_mask_right _ _ _, ?_, rfl, rfl, rfl, ?_, ?_⟩
  · unfold do_tx
    rw [if_pos (show (uputc_d3 (uputc_d2 k (uputc_d1 up)) c).outdata ≤ 0 from
      le_of_eq hdata)]
    rfl
  · show k.RX_BIT &&& k.RX_BIT = k.RX_BIT
    exact Nat.and_self _
  · intro h
    exact h

/-- C5 on the port at rest with the PL011 constants: `uputc(65)` writes 65
and leaves `IMSC` at `0x30`, the following `do_tx` leaves `IMSC` at `0x10`. -/
theorem idle_round_trip_witness :
    (idlePort pl011).txon = 0 ∧ (idlePort pl011).outdata = 0 ∧
    (idlePort pl011).base.UFR &&& pl011.TXFF = 0 ∧
    (uputc pl011 (idlePort pl011) 65).toOption.map
      (fun u => (u.base.sent, u.txon, u.base.IMSC)) = some ([65], 1, 0x30) ∧
    (do_tx pl011 (uputc_d3 (uputc_d2 pl011 (uputc_d1 (idlePort pl011))) 65)).toOption.map
      (fun u => (u.base.sent, u.txon, u.base.IMSC)) = some ([65], 0, 0x10) := by
  obtain ⟨up1, up2, h1, h2, _, _, _, _, h7, h8, _⟩ :=
    idle_round_trip pl011 (idlePort pl011) 65 rfl rfl rfl
  subst h2
  subst h8
  refine ⟨rfl, rfl, rfl, ?_, ?_⟩
  · rw [h1]; rfl
  · have e : uputc_d3 (uputc_d2 pl011 (uputc_d1 (idlePort pl011))) 65 =
        { idlePort pl011 with
          txon := 1,
          base := { (idlePort pl011).base with
                    IMSC := (idlePort pl011).base.IMSC ||| (pl011.RX_BIT ||| pl011.TX_BIT),
                    sent := (idlePort pl011).base.sent ++ [65] } } := rfl
    rw [e, h7]; rfl

/-! ## C6, C7: the dispatcher -/

theorem do_rx_frame {k : Config} {up up1 : UART} (h : do_rx k up = .ok up1) :
    up1.base = up.base ∧ up1.txon = up.txon ∧ up1.outbuf = up.outbuf ∧
    up1.outhead = up.outhead ∧ up1.outtail = up.outtail ∧
    up1.outdata = up.outdata ∧ up1.outroom = up.outroom := by
  unfold do_rx at h
  split at h
  · cases h; exact ⟨rfl, rfl, rfl, rfl, rfl, rfl, rfl⟩
  · cases h

/-- C6.  Dispatch.  When the status byte read from `MIS` has `RX_BIT` set,
with `TX_BIT` set or not, `uart_handler` is `do_rx`: same result, and on return
the registers, `txon` and the transmit buffer, indices and counters are as
before, so nothing of `do_tx` has happened.  When it has `RX_BIT` clear and
`TX_BIT` set, `uart_handler` is `do_tx`.  The status byte is the register
narrowed to eight bits; for masks below 256 the tests on the byte and on the
register agree. -/
theorem handler_dispatch (k : Config) (up : UART) :
    (up.base.MIS % 256 &&& k.RX_BIT ≠ 0 →
      uart_handler k up = do_rx k up ∧
      ∀ up1, uart_handler k up = .ok up1 →
        up1.base = up.base ∧ up1.txon = up.txon ∧ up1.outbuf = up.outbuf ∧
        up1.outhead = up.outhead ∧ up1.outtail = up.outtail ∧
        up1.outdata = up.outdata ∧ up1.outroom = up.outroom) ∧
    (up.base.MIS % 256 &&& k.RX_BIT = 0 → up.base.MIS % 256 &&& k.TX_BIT ≠ 0 →
      uart_handler k up = do_tx k up) ∧
    (k.RX_BIT < 256 → k.TX_BIT < 256 →
      (up.base.MIS &&& k.RX_BIT ≠ 0 → uart_handler k up = do_rx k up) ∧
      (up.base.MIS &&& k.RX_BIT = 0 → up.base.MIS &&& k.TX_BIT ≠ 0 →
        uart_handler k up = do_tx k up)) := by
  have hrx : up.base.MIS % 256 &&& k.RX_BIT ≠ 0 → uart_handler k up = do_rx k up := by
    intro h
    unfold uart_handler
    simp only []
    rw [if_pos h]
  have htx : up.base.MIS % 256 &&& k.RX_BIT = 0 → up.base.MIS % 256 &&& k.TX_BIT ≠ 0 →
      uart_handler k up = do_tx k up := by
    intro h1 h2
    unfold uart_handler
    simp only []
    rw [if_neg (by simp [h1]), if_pos h2]
  refine ⟨fun h => ⟨hrx h, fun up1 h1 => ?_⟩, htx, fun hr ht => ⟨fun h => ?_, fun h1 h2 => ?_⟩⟩
  · rw [hrx h] at h1
    exact do_rx_frame h1
  · exact hrx (by rw [narrow_and _ _ hr]; exact h)
  · exact htx (by rw [narrow_and _ _ hr]; exact h1) (by rw [narrow_and _ _ ht]; exact h2)

/-- C6 with both bits raised in `MIS` (`0x30`) and 65 in the data register:
the handler stores 65 in `inbuf[0]` and sends nothing to the transmitter. -/
theorem handler_dispatch_witness :
    (deviceInput (idlePort pl011) 65 0 0x30).base.MIS % 256 &&& pl011.RX_BIT ≠ 0 ∧
    uart_handler pl011 (deviceInput (idlePort pl011) 65 0 0x30)
      = do_rx pl011 (deviceInput (idlePort pl011) 65 0 0x30) ∧
    (uart_handler pl011 (deviceInput (idlePort pl011) 65 0 0x30)).toOption.map
      (fun u => (u.inbuf 0, u.indata, u.base.sent, u.txon)) = some (65, 1, [], 0) :=
  ⟨by decide,
   ((handler_dispatch pl011 (deviceInput (idlePort pl011) 65 0 0x30)).1 (by decide)).1,
   rfl⟩

theorem do_rx_not_dead (k : Config) (up st : UART) : do_rx k up ≠ .error (.dead, st) := by
  unfold do_rx
  split <;> intro h <;> cases h

theorem do_tx_not_dead (k : Config) (up st : UART) : do_tx k up ≠ .error (.dead, st) := by
  unfold do_tx
  split
  · intro h; cases h
  · split <;> intro h <;> cases h

theorem do_rx_returns (k : Config) (up : UART) (hin : inRange k up.inhead) :
    ∃ up1, do_rx k up = .ok up1 := by
  unfold do_rx
  rw [if_pos hin]
  exact ⟨_, rfl⟩

theorem do_tx_returns (k : Config) (up : UART) (hin : inRange k up.outtail) :
    ∃ up1, do_tx k up = .ok up1 := by
  unfold do_tx
  by_cases hd : up.outdata ≤ 0
  · rw [if_pos hd]
    exact ⟨_, rfl⟩
  · rw [if_neg hd, if_pos hin]
    exact ⟨_, rfl⟩

/-- C7.  Fatal halt.  `uart_handler` ends in its `while(1);` exactly when the
status byte read from `MIS` has neither `RX_BIT` nor `TX_BIT` set, and the port
it is stuck in is the port it was called on: no buffer, index, counter, `txon`
or register is modified.  On a port whose indices are legal that is the only
way for it not to return. -/
theorem fatal_halt (k : Config) (up : UART) :
    ((∃ st, uart_handler k up = .error (.dead, st)) ↔
      (up.base.MIS % 256 &&& k.RX_BIT = 0 ∧ up.base.MIS % 256 &&& k.TX_BIT = 0)) ∧
    (up.base.MIS % 256 &&& k.RX_BIT = 0 ∧ up.base.MIS % 256 &&& k.TX_BIT = 0 →
      uart_handler k up = .error (.dead, up)) ∧
    (inRange k up.inhead → inRange k up.outtail →
      ((∀ up1, uart_handler k up ≠ .ok up1) ↔
        (up.base.MIS % 256 &&& k.RX_BIT = 0 ∧ up.base.MIS % 256 &&& k.TX_BIT = 0))) := by
  have hdead : up.base.MIS % 256 &&& k.RX_BIT = 0 ∧ up.base.MIS % 256 &&& k.TX_BIT = 0 →
      uart_handler k up = .error (.dead, up) := by
    intro ⟨h1, h2⟩
    unfold uart_handler
    simp only []
    rw [if_neg (by simp [h1]), if_neg (by simp [h2])]
  refine ⟨⟨?_, fun h => ⟨up, hdead h⟩⟩, hdead, fun hi ho => ⟨?_, ?_⟩⟩
  · intro ⟨st, h⟩
    unfold uart_handler at h
    simp only [] at h
    by_cases h1 : up.base.MIS % 256 &&& k.RX_BIT ≠ 0
    · rw [if_pos h1] at h
      exact absurd h (do_rx_not_dead k up st)
    · rw [if_neg h1] at h
      by_cases h2 : up.base.MIS % 256 &&& k.TX_BIT ≠ 0
      · rw [if_pos h2] at h
        exact absurd h (do_tx_not_dead k up st)
      · exact ⟨not_not.1 h1, not_not.1 h2⟩
  · intro h
    by_cases h1 : up.base.MIS % 256 &&& k.RX_BIT ≠ 0
    · obtain ⟨up1, e⟩ := do_rx_returns k up hi
      refine absurd ?_ (h up1)
      unfold uart_handler
      simp only []
      rw [if_pos h1, e]
    · by_cases h2 : up.base.MIS % 256 &&& k.TX_BIT ≠ 0
      · obtain ⟨up1, e⟩ := do_tx_returns k up ho
        refine absurd ?_ (h up1)
        unfold uart_handler
        simp only []
        rw [if_neg h1, if_pos h2, e]
      · exact ⟨not_not.1 h1, not_not.1 h2⟩
  · intro h up1 e
    rw [hdead h] at e
    cases e

/-- C7 with the PL011 constants and only bit 6 raised in `MIS` (`0x40`): the
handler halts with the port as it found it. -/
theorem fatal_halt_witness :
    ((deviceInput (idlePort pl011) 65 0 0x40).base.MIS % 256 &&& pl011.RX_BIT = 0 ∧
      (deviceInput (idlePort pl011) 65 0 0x40).base.MIS % 256 &&& pl011.TX_BIT = 0) ∧
    uart_handler pl011 (deviceInput (idlePort pl011) 65 0 0x40)
      = .error (.dead, deviceInput (idlePort pl011) 65 0 0x40) :=
  ⟨by decide, (fatal_halt pl011 (deviceInput (idlePort pl011) 65 0 0x40)).2.1 (by decide)⟩

/-! ## C10: what `ugetc` does -/

/-- C10.  `ugetc` postcondition.  With `indata > 0` and `intail` in
`[0, SBUFSIZE)`, `ugetc` returns `inbuf[intail]` of the state it was called in,
and leaves `intail = (intail + 1) mod SBUFSIZE`, `indata` one less, `inroom`
one more, and every other field as it was. -/
theorem ugetc_post (k : Config) (up : UART) (hd : 0 < up.indata)
    (hin : inRange k up.intail) :
    ugetc k up = .ok (up.inbuf up.intail,
      { up with intail := (up.intail + 1) % (k.SBUFSIZE : Int),
                indata := up.indata - 1,
                inroom := up.inroom + 1 }) := by
  unfold ugetc
  rw [if_neg (by omega), if_pos hin]
  simp only [ugetc_s4, ugetc_s3, ugetc_s2, ugetc_s1]
  rw [tmod_succ k.SBUFSIZE up.intail hin.1]

/-- C10 on a 4-byte port holding one byte at the last slot: `ugetc` returns
it and `intail` wraps to 0. -/
theorem ugetc_post_witness :
    (0 : Int) < 1 ∧ inRange tiny 3 ∧
    (ugetc tiny { idlePort tiny with inbuf := Function.update (fun _ => 0) 3 65,
                                     inhead := 0, intail := 3,
                                     indata := 1, inroom := 3 }).toOption.map
      (fun r => (r.1, r.2.intail, r.2.indata, r.2.inroom, r.2.inhead)) = some (65, 0, 0, 4, 0) := by
  refine ⟨by decide, by decide, ?_⟩
  rw [ugetc_post tiny _ (by decide) (by decide)]
  rfl

/-! ## C8: `ugets` -/

theorem ugets_loop_unfold (k : Config) (up : UART) (mem : Nat → Nat) (pos : Nat)
    (echo : List Nat) :
    ugets_loop k up mem pos echo =
      match ugetc k up with
      | .error e => .error e
      | .ok (c, up1) =>
        if c ≠ 13 then
          match uputc k up1 c with
          | .error e => .error e
          | .ok up2 => ugets_loop k up2 (Function.update mem pos c) (pos + 1) (echo ++ [c])
        else
          match uputc k up1 10 with
          | .error e => .error e
          | .ok up2 =>
            match uputc k up2 13 with
            | .error e => .error e
            | .ok up3 =>
              .ok { up := up3
                    mem := Function.update (Function.update (Function.update
                      (Function.update mem pos c) pos 10) (pos + 1) 13) (pos + 2) 0
                    pos := pos + 2
                    echo := echo ++ [10, 13] } := by
  rw [ugets_loop]
  split
  · rename_i e h
    rw [h]
  · rename_i c up1 h
    rw [h]
    simp only []
    split
    · split
      · rename_i e h2
        rw [h2]
      · rename_i up2 h2
        rw [h2]
    · rfl

theorem uputc_rx_holds {k : Config} {up up1 : UART} {c : Nat} {q : List Nat}
    (h : uputc k up c = .ok up1) (hq : RxHolds k up q) : RxHolds k up1 q := by
  unfold uputc at h
  split at h
  · split at h
    · cases h; exact hq
    · cases h
  · split at h
    · cases h
    · cases h; exact hq

theorem ugetc_ready {k : Config} {up up1 : UART} {c : Nat}
    (h : ugetc k up = .ok (c, up1)) (hr : TxReady k up) : TxReady k up1 := by
  unfold ugetc at h
  split at h
  · cases h
  · split at h
    · cases h; exact hr
    · cases h

theorem uputc_ready {k : Config} {up : UART} (c : Nat) (hr : TxReady k up) :
    ∃ up1, uputc k up c = .ok up1 ∧ TxReady k up1 := by
  obtain ⟨hin, hff⟩ := hr
  unfold uputc
  by_cases hon : up.txon ≠ 0
  · rw [if_pos hon, if_pos hin]
    refine ⟨_, rfl, ?_, fun h => absurd h hon⟩
    show inRange k (Int.tmod (up.outhead + 1) k.SBUFSIZE)
    rw [tmod_succ k.SBUFSIZE up.outhead hin.1]
    have hN : (0 : Int) < k.SBUFSIZE := by
      have := hin.1
      have := hin.2
      omega
    exact ⟨Int.emod_nonneg _ (by omega), Int.emod_lt_of_pos _ hN⟩
  · have h0 : up.txon = 0 := not_not.1 hon
    rw [if_neg hon, if_neg (by simp [hff h0])]
    refine ⟨_, rfl, hin, fun h => ?_⟩
    simp [uputc_d3, uputc_d2, uputc_d1] at h

theorem map_narrow (L : List Nat) (h : ∀ b ∈ L, b < 256) : L.map (· % 256) = L := by
  induction L with
  | nil => rfl
  | cons b L ih =>
    rw [List.map_cons, ih (fun x hx => h x (by simp [hx]))]
    show b % 256 :: L = b :: L
    rw [Nat.mod_eq_of_lt (h b (by simp))]

theorem deliver_holds (k : Config) (vs : List Nat) :
    ∀ (up : UART) (q : List Nat), RxHolds k up q → q.length + vs.length ≤ k.SBUFSIZE →
      ∃ up1, deliver k up vs = .ok up1 ∧ RxHolds k up1 (q ++ vs.map (· % 256)) ∧
        (TxReady k up → TxReady k up1) := by
  induction vs with
  | nil =>
    intro up q hq _
    exact ⟨up, rfl, by simpa using hq, id⟩
  | cons v vs ih =>
    intro up q hq hfit
    have hq0 : RxHolds k (present up v) q := hq
    have hroom : (present up v).inroom ≠ 0 := by
      have := hq0.2
      simp at hfit
      omega
    obtain ⟨up0, hdo, hq1⟩ := do_rx_holds hq0 hroom
    obtain ⟨hb, ht, _, hh, _⟩ := do_rx_frame hdo
    obtain ⟨up1, hdel, hq2, hready⟩ := ih up0 _ hq1 (by simp at hfit ⊢; omega)
    refine ⟨up1, ?_, ?_, fun hr => hready ?_⟩
    · simp only [deliver, hdo]
      exact hdel
    · simpa [present, deviceInput] using hq2
    · obtain ⟨h1, h2⟩ := hr
      refine ⟨by rw [hh]; exact h1, fun h => ?_⟩
      rw [hb]
      exact h2 (ht.symm.trans h)

theorem ugets_loop_holds (k : Config) (L : List Nat) :
    ∀ (up : UART) (mem : Nat → Nat) (pos : Nat) (echo rest : List Nat),
      RxHolds k up (L ++ 13 :: rest) → (∀ b ∈ L, b ≠ 13) →
      (∀ r, ugets_loop k up mem pos echo = .ok r →
        r.mem = poke mem pos (L ++ [10, 13, 0]) ∧ r.pos = pos + L.length + 2 ∧
        r.echo = echo ++ L ++ [10, 13] ∧ RxHolds k r.up rest) ∧
      (TxReady k up → ∃ r, ugets_loop k up mem pos echo = .ok r) := by
  induction L with
  | nil =>
    intro up mem pos echo rest hq _
    obtain ⟨up1, hget, hq1⟩ := ugetc_holds (show RxHolds k up (13 :: rest) from hq)
    rw [ugets_loop_unfold, hget]
    simp only [ne_eq, not_true_eq_false, if_false]
    constructor
    · intro r h
      cases h2 : uputc k up1 10 with
      | error e => rw [h2] at h; cases h
      | ok up2 =>
        rw [h2] at h
        simp only [] at h
        cases h3 : uputc k up2 13 with
        | error e => rw [h3] at h; cases h
        | ok up3 =>
          rw [h3] at h
          cases h
          refine ⟨?_, rfl, by simp, uputc_rx_holds h3 (uputc_rx_holds h2 hq1)⟩
          simp [poke, Function.update_idem]
    · intro hr
      obtain ⟨up2, h2, hr2⟩ := uputc_ready 10 (ugetc_ready hget hr)
      obtain ⟨up3, h3, _⟩ := uputc_ready 13 hr2
      rw [h2]
      simp only []
      rw [h3]
      exact ⟨_, rfl⟩
  | cons b L ih =>
    intro up mem pos echo rest hq hcr
    obtain ⟨up1, hget, hq1⟩ :=
      ugetc_holds (show RxHolds k up (b :: (L ++ 13 :: rest)) from hq)
    have hb : b ≠ 13 := hcr b (by simp)
    rw [ugets_loop_unfold, hget]
    simp only [if_pos hb]
    constructor
    · intro r h
      cases h2 : uputc k up1 b with
      | error e => rw [h2] at h; cases h
      | ok up2 =>
        rw [h2] at h
        simp only [] at h
        obtain ⟨m1, m2, m3, m4⟩ :=
          (ih up2 (Function.update mem pos b) (pos + 1) (echo ++ [b]) rest
            (uputc_rx_holds h2 hq1) (fun x hx => hcr x (by simp [hx]))).1 r h
        refine ⟨?_, ?_, ?_, m4⟩
        · rw [m1]; rfl
        · rw [m2]; simp; omega
        · rw [m3]; simp
    · intro hr
      obtain ⟨up2, h2, hr2⟩ := uputc_ready b (ugetc_ready hget hr)
      rw [h2]
      exact (ih up2 (Function.update mem pos b) (pos + 1) (echo ++ [b]) rest
        (uputc_rx_holds h2 hq1) (fun x hx => hcr x (by simp [hx]))).2 hr2

/-- C8.  Echo fidelity of `ugets`.  Let `L` be bytes without a carriage
return, and let the receive path deliver `L` followed by `'\r'` into an empty
receive buffer that they fit in.  Then the delivery succeeds; whenever `ugets`
returns, the caller's memory holds `L`, `'\n'`, `'\r'`, `0` from offset 0 on
(`|L| + 3` bytes, the pointer resting on the `0`) and the bytes it passed to
`uputc` are `L`, `'\n'`, `'\r'`, in that order; and `ugets` does return when
`outhead` is a legal index and `TXFF` is clear on an idle transmitter. -/
theorem ugets_echo (k : Config) (up : UART) (mem : Nat → Nat) (L : List Nat)
    (hbytes : ∀ b ∈ L, b < 256) (hcr : ∀ b ∈ L, b ≠ 13)
    (hempty : RxEmpty k up) (hin : inRange k up.intail)
    (hfit : L.length + 1 ≤ k.SBUFSIZE) :
    ∃ up1, deliver k up (L ++ [13]) = .ok up1 ∧
      (∀ r, ugets k up1 mem = .ok r →
        r.mem = poke mem 0 (L ++ [10, 13, 0]) ∧ r.pos = L.length + 2 ∧
        r.echo = L ++ [10, 13]) ∧
      (TxReady k up → ∃ r, ugets k up1 mem = .ok r) := by
  obtain ⟨e1, e2, e3⟩ := hempty
  have hq : RxHolds k up [] := by
    refine ⟨?_, by simp [e3]⟩
    rw [e1, e2]
    exact ring_empty up.inbuf up.intail hin.1 hin.2
  obtain ⟨up1, hdel, hq1, hready⟩ := deliver_holds k (L ++ [13]) up [] hq (by simp; omega)
  have hmap : List.map (· % 256) (L ++ [13]) = L ++ [13] := by
    rw [List.map_append, map_narrow L hbytes]
    rfl
  rw [List.nil_append, hmap] at hq1
  have hloop := ugets_loop_holds k L up1 mem 0 [] [] hq1 hcr
  refine ⟨up1, hdel, fun r h => ?_, fun hr => hloop.2 (hready hr)⟩
  obtain ⟨m1, m2, m3, _⟩ := hloop.1 r h
  exact ⟨m1, by rw [m2]; omega, by rw [m3]; simp⟩

/-- C8 for `L = "AB"` on the 4-byte port at rest: after `'A'`, `'B'`, `'\r'`
have been delivered, `ugets` returns with `"AB\n\r"` and the terminating 0 in
the caller's memory, the pointer at offset 4, having called `uputc` with
`'A'`, `'B'`, `'\n'`, `'\r'`. -/
theorem ugets_echo_witness :
    (∀ b ∈ [65, 66], b < 256) ∧ (∀ b ∈ [65, 66], b ≠ 13) ∧
    RxEmpty tiny (idlePort tiny) ∧ inRange tiny (idlePort tiny).intail ∧
    [65, 66].length + 1 ≤ tiny.SBUFSIZE ∧ TxReady tiny (idlePort tiny) ∧
    ((deliver tiny (idlePort tiny) [65, 66, 13]).toOption.bind
      (fun u => (ugets tiny u (fun _ => 0)).toOption)).map
      (fun r => ([r.mem 0, r.mem 1, r.mem 2, r.mem 3, r.mem 4], r.pos, r.echo))
      = some ([65, 66, 10, 13, 0], 4, [65, 66, 10, 13]) := by
  have hb : ∀ b ∈ [65, 66], b < 256 := by decide
  have hc : ∀ b ∈ [65, 66], b ≠ 13 := by decide
  have he : RxEmpty tiny (idlePort tiny) := ⟨rfl, rfl, rfl⟩
  have hi : inRange tiny (idlePort tiny).intail := by decide
  have hf : [65, 66].length + 1 ≤ tiny.SBUFSIZE := by decide
  have ht : TxReady tiny (idlePort tiny) := ⟨by decide, fun _ => rfl⟩
  refine ⟨hb, hc, he, hi, hf, ht, ?_⟩
  obtain ⟨up1, hdel, hA, hB⟩ := ugets_echo tiny (idlePort tiny) (fun _ => 0) [65, 66] hb hc he hi hf
  obtain ⟨r, hr⟩ := hB ht
  obtain ⟨m1, m2, m3⟩ := hA r hr
  have hdel2 : deliver tiny (idlePort tiny) [65, 66, 13] = .ok up1 := hdel
  rw [hdel2]
  show ((ugets tiny up1 (fun _ => 0)).toOption).map _ = _
  rw [hr]
  show some ([r.mem 0, r.mem 1, r.mem 2, r.mem 3, r.mem 4], r.pos, r.echo) = _
  rw [m1, m2, m3]
  rfl

/-! ## C9: `uprints` -/

theorem uprints_zero (k : Config) (up : UART) (rest : List Nat) :
    uprints k up (0 :: rest) = .ok (up, []) := by
  rw [uprints, if_pos rfl]

theorem uprints_cons (k : Config) (up : UART) (b : Nat) (mem : List Nat) (hb : b ≠ 0) :
    uprints k up (b :: mem) =
      match uputc k up b with
      | .error e => .error e
      | .ok up1 =>
        match uprints k up1 mem with
        | .error e => .error e
        | .ok (up2, calls) => .ok (up2, b :: calls) := by
  rw [uprints, if_neg hb]

theorem uprints_calls (k : Config) (rest : List Nat) (s : List Nat) :
    ∀ (up : UART), (∀ b ∈ s, b ≠ 0) →
      (∀ up1 calls, uprints k up (s ++ 0 :: rest) = .ok (up1, calls) → calls = s) ∧
      (TxReady k up → ∃ up1, uprints k up (s ++ 0 :: rest) = .ok (up1, s)) := by
  induction s with
  | nil =>
    intro up _
    constructor
    · intro up1 calls h
      rw [List.nil_append, uprints_zero] at h
      cases h
      rfl
    · intro _
      exact ⟨up, uprints_zero k up rest⟩
  | cons b s ih =>
    intro up hz
    have hb : b ≠ 0 := hz b (by simp)
    have hz1 : ∀ x ∈ s, x ≠ 0 := fun x hx => hz x (by simp [hx])
    constructor
    · intro up1 calls h
      rw [List.cons_append, uprints_cons k up b _ hb] at h
      cases h2 : uputc k up b with
      | error e => rw [h2] at h; cases h
      | ok up2 =>
        rw [h2] at h
        simp only [] at h
        cases h3 : uprints k up2 (s ++ 0 :: rest) with
        | error e => rw [h3] at h; cases h
        | ok r =>
          obtain ⟨up3, calls3⟩ := r
          have hc := (ih up2 hz1).1 up3 calls3 h3
          rw [h3] at h
          cases h
          rw [hc]
    · intro hr
      obtain ⟨up2, h2, hr2⟩ := uputc_ready b hr
      obtain ⟨up3, h3⟩ := (ih up2 hz1).2 hr2
      refine ⟨up3, ?_⟩
      rw [List.cons_append, uprints_cons k up b _ hb, h2]
      simp only []
      rw [h3]

theorem uprints_buffer (k : Config) (rest : List Nat) (tl : List Nat) :
    ∀ (up : UART) (q : List Nat), TxHolds k up q → up.txon ≠ 0 →
      q.length + tl.length ≤ k.SBUFSIZE → (∀ b ∈ tl, b ≠ 0) →
      ∃ up1, uprints k up (tl ++ 0 :: rest) = .ok (up1, tl) ∧ TxHolds k up1 (q ++ tl) ∧
        up1.base = up.base ∧ up1.txon = up.txon := by
  induction tl with
  | nil =>
    intro up q hq _ _ _
    exact ⟨up, uprints_zero k up rest, by simpa using hq, rfl, rfl⟩
  | cons b tl ih =>
    intro up q hq hon hfit hz
    have hb : b ≠ 0 := hz b (by simp)
    have hroom : up.outroom ≠ 0 := by
      have := hq.2
      simp at hfit
      omega
    obtain ⟨up2, h2, hq2, hton, hbase⟩ := uputc_buffer_holds b hq hon hroom
    obtain ⟨up3, h3, hq3, hbase3, hton3⟩ :=
      ih up2 (q ++ [b]) hq2 (by rw [hton]; exact hon) (by simp at hfit ⊢; omega)
        (fun x hx => hz x (by simp [hx]))
    refine ⟨up3, ?_, by simpa using hq3, by rw [hbase3, hbase], by rw [hton3, hton]⟩
    rw [List.cons_append, uprints_cons k up b _ hb, h2]
    simp only []
    rw [h3]

/-- C9.  `uprints` order.  For bytes `s = b_1 ... b_n`, none zero, followed
by a terminating 0: whenever `uprints` returns it has called `uputc` exactly
with `b_1, ..., b_n`, in order, and not with the terminator; it does return
when `outhead` is a legal index and `TXFF` is clear on an idle transmitter.  On
an idle port with `TXFF` clear, no interrupt taken meanwhile and
`n - 1 <= SBUFSIZE`, `b_1` is the one byte written to the data register and
`b_2 ... b_n` are what the transmit buffer holds, in order, `outdata` having
grown by `n - 1`. -/
theorem uprints_order (k : Config) (up : UART) (s rest : List Nat)
    (hz : ∀ b ∈ s, b ≠ 0) :
    (∀ up1 calls, uprints k up (s ++ 0 :: rest) = .ok (up1, calls) → calls = s) ∧
    (TxReady k up → ∃ up1, uprints k up (s ++ 0 :: rest) = .ok (up1, s)) ∧
    (∀ b tl, s = b :: tl → TxIdle k up → inRange k up.outtail →
      up.base.UFR &&& k.TXFF = 0 → tl.length ≤ k.SBUFSIZE →
      ∃ up1, uprints k up (s ++ 0 :: rest) = .ok (up1, s) ∧
        up1.base.sent = up.base.sent ++ [b] ∧ TxHolds k up1 tl ∧
        txPending k up1 = tl ∧ up1.outdata = up.outdata + (tl.length : Int)) := by
  obtain ⟨h1, h2⟩ := uprints_calls k rest s up hz
  refine ⟨h1, h2, ?_⟩
  intro b tl hs hidle hin hff hfit
  subst hs
  obtain ⟨e0, e1, e2, e3⟩ := hidle
  have hb : b ≠ 0 := hz b (by simp)
  have hdo := uputc_direct_eq (k := k) b e0 hff
  have hq : TxHolds k (uputc_d3 (uputc_d2 k (uputc_d1 up)) b) [] := by
    refine ⟨?_, by simp [e3, uputc_d3, uputc_d2, uputc_d1]⟩
    show RingHolds k.SBUFSIZE up.outbuf up.outhead up.outtail up.outdata []
    rw [e1, e2]
    exact ring_empty up.outbuf up.outtail hin.1 hin.2
  obtain ⟨up1, hrun, hq1, hbase, _⟩ :=
    uprints_buffer k rest tl _ [] hq (by simp [uputc_d3, uputc_d2, uputc_d1])
      (by simpa using hfit) (fun x hx => hz x (by simp [hx]))
  rw [List.nil_append] at hq1
  refine ⟨up1, ?_, ?_, hq1, txPending_of_holds hq1, ?_⟩
  · rw [List.cons_append, uprints_cons k up b _ hb, hdo]
    simp only []
    rw [hrun]
  · rw [hbase]
    rfl
  · rw [hq1.1.2.2.1, e2]
    simp

/-- C9 for the string `"Hi!"` on the 4-byte port at rest: `uputc` is called
with 72, 105, 33; 72 goes to the data register, 105 and 33 into `outbuf`, and
`outdata` is 2. -/
theorem uprints_order_witness :
    (∀ b ∈ [72, 105, 33], b ≠ 0) ∧ TxIdle tiny (idlePort tiny) ∧
    inRange tiny (idlePort tiny).outtail ∧ (idlePort tiny).base.UFR &&& tiny.TXFF = 0 ∧
    [105, 33].length ≤ tiny.SBUFSIZE ∧
    (uprints tiny (idlePort tiny) [72, 105, 33, 0]).toOption.map
      (fun r => (r.2, r.1.base.sent, txPending tiny r.1, r.1.outdata))
      = some ([72, 105, 33], [72], [105, 33], 2) ∧
    (uprints tiny (idlePort tiny) [72, 105, 33, 0]).toOption.map
      (fun r => (r.1.outbuf 0, r.1.outbuf 1, r.1.outhead, r.1.outtail))
      = some (105, 33, 2, 0) := by
  have hz : ∀ b ∈ [72, 105, 33], b ≠ 0 := by decide
  have hi : TxIdle tiny (idlePort tiny) := ⟨rfl, rfl, rfl, rfl⟩
  refine ⟨hz, hi, by decide, rfl, by decide, ?_, rfl⟩
  obtain ⟨up1, hrun, h1, _, h3, h4⟩ :=
    (uprints_order tiny (idlePort tiny) [72, 105, 33] [] hz).2.2 72 [105, 33] rfl hi
      (by decide) rfl (by decide)
  have hrun2 : uprints tiny (idlePort tiny) [72, 105, 33, 0] = .ok (up1, [72, 105, 33]) := hrun
  rw [hrun2]
  show some ([72, 105, 33], up1.base.sent, txPending tiny up1, up1.outdata) = _
  rw [h1, h3, h4]
  rfl

/-! ## C11: `uputc` in buffering mode -/

/-- C11.  `uputc` in buffering mode touches no hardware.  With `txon` true
and `outhead` a legal index, `uputc(c)` returns having stored `c` at
`outbuf[outhead]`, with `outhead = (outhead + 1) mod SBUFSIZE`, `outdata` one
more, `outroom` one less, and `txon`, `outtail`, the receive side and every
register as they were: nothing is written to the data register, `IMSC` keeps
its value, and the outcome does not depend on `UFR`.  With `txon` true and
`outhead` not a legal index the store is illegal and the port is left as it
was. -/
theorem uputc_buffering (k : Config) (up : UART) (c : Nat) (hon : up.txon ≠ 0) :
    (inRange k up.outhead →
      uputc k up c = .ok
        { up with outbuf := Function.update up.outbuf up.outhead c,
                  outhead := (up.outhead + 1) % (k.SBUFSIZE : Int),
                  outdata := up.outdata + 1,
                  outroom := up.outroom - 1 }) ∧
    (¬ inRange k up.outhead → uputc k up c = .error (.bounds, up)) := by
  constructor
  · intro hin
    unfold uputc
    rw [if_pos hon, if_pos hin]
    simp only [uputc_b4, uputc_b3, uputc_b2, uputc_b1, uputc_b0]
    rw [tmod_succ k.SBUFSIZE up.outhead hin.1]
  · intro hin
    unfold uputc
    rw [if_pos hon, if_neg hin]

/-- C11 on a busy 4-byte port whose flag register shows `TXFF`: `uputc(66)`
returns at once with 66 in `outbuf[3]`, `outhead` wrapped to 0, and the
registers untouched. -/
theorem uputc_buffering_witness :
    ({ idlePort tiny with txon := 1, outhead := 3, outtail := 3,
                          base := { (idlePort tiny).base with UFR := 0x20, IMSC := 0x30 } }
      : UART).txon ≠ 0 ∧
    inRange tiny 3 ∧
    (uputc tiny { idlePort tiny with txon := 1, outhead := 3, outtail := 3,
                                     base := { (idlePort tiny).base with
                                               UFR := 0x20, IMSC := 0x30 } } 66).toOption.map
      (fun u => (u.outbuf 3, u.outhead, u.outdata, u.outroom, u.outtail, u.txon,
        u.base.sent, u.base.IMSC)) = some (66, 0, 1, 3, 3, 1, [], 0x30) := by
  refine ⟨by decide, by decide, ?_⟩
  rw [(uputc_buffering tiny _ 66 (by decide)).1 (by decide)]
  rfl

/-! ## C15: the drain step of `do_tx` -/

/-- C15.  `do_tx` drain step.  With `outdata > 0` and `outtail` in
`[0, SBUFSIZE)`, `do_tx` returns having written exactly `outbuf[outtail]` of
the state it was called in to the data register, with
`outtail = (outtail + 1) mod SBUFSIZE`, `outdata` one less, `outroom` one
more, and `txon`, `IMSC`, `outhead`, the contents of `outbuf` and the receive
side as they were. -/
theorem do_tx_drain_step (k : Config) (up : UART) (hd : 0 < up.outdata)
    (hin : inRange k up.outtail) :
    do_tx k up = .ok
      { up with outtail := (up.outtail + 1) % (k.SBUFSIZE : Int),
                outdata := up.outdata - 1,
                outroom := up.outroom + 1,
                base := { up.base with sent := up.base.sent ++ [up.outbuf up.outtail] } } := by
  unfold do_tx
  rw [if_neg (by omega), if_pos hin]
  simp only [do_tx_drain]
  rw [tmod_succ k.SBUFSIZE up.outtail hin.1]

/-- C15 on a busy 4-byte port holding 66 at `outbuf[3]`: `do_tx` writes 66 to
the data register, `outtail` wraps to 0, and `txon` and `IMSC` stay. -/
theorem do_tx_drain_step_witness :
    (0 : Int) < 1 ∧ inRange tiny 3 ∧
    (do_tx tiny { idlePort tiny with txon := 1, outhead := 0, outtail := 3,
                                     outdata := 1, outroom := 3,
                                     outbuf := Function.update (fun _ => 0) 3 66,
                                     base := { (idlePort tiny).base with
                                               IMSC := 0x30 } }).toOption.map
      (fun u => (u.base.sent, u.outtail, u.outdata, u.outroom, u.txon, u.base.IMSC,
        u.outhead, u.outbuf 3)) = some ([66], 0, 0, 4, 1, 0x30, 0, 66) := by
  refine ⟨by decide, by decide, ?_⟩
  rw [do_tx_drain_step tiny _ (by decide) (by decide)]
  rfl

/-! ## C13: the indices stay legal -/

theorem inRange_wrap (k : Config) (i : Int) (h : inRange k i) :
    inRange k (Int.tmod (i + 1) k.SBUFSIZE) := by
  rw [tmod_succ k.SBUFSIZE i h.1]
  have hN : (0 : Int) < k.SBUFSIZE := by
    have := h.1
    have := h.2
    omega
  exact ⟨Int.emod_nonneg _ (by omega), Int.emod_lt_of_pos _ hN⟩

theorem do_rx_indices {k : Config} {up : UART} (h : IndicesOk k up) :
    (∃ up1, do_rx k up = .ok up1 ∧ IndicesOk k up1) := by
  obtain ⟨h1, h2, h3, h4⟩ := h
  unfold do_rx
  rw [if_pos h1]
  exact ⟨_, rfl, inRange_wrap k _ h1, h2, h3, h4⟩

theorem do_tx_indices {k : Config} {up : UART} (h : IndicesOk k up) :
    (∃ up1, do_tx k up = .ok up1 ∧ IndicesOk k up1) := by
  obtain ⟨h1, h2, h3, h4⟩ := h
  unfold do_tx
  by_cases hd : up.outdata ≤ 0
  · rw [if_pos hd]
    exact ⟨_, rfl, h1, h2, h3, h4⟩
  · rw [if_neg hd, if_pos h4]
    exact ⟨_, rfl, h1, h2, h3, inRange_wrap k _ h4⟩

theorem ugetc_indices {k : Config} {up : UART} (h : IndicesOk k up) :
    (ugetc k up = .error (.spin, up) ∧ up.indata ≤ 0) ∨
    (∃ c up1, ugetc k up = .ok (c, up1) ∧ IndicesOk k up1) := by
  obtain ⟨h1, h2, h3, h4⟩ := h
  unfold ugetc
  by_cases hd : up.indata ≤ 0
  · rw [if_pos hd]
    exact Or.inl ⟨rfl, hd⟩
  · rw [if_neg hd, if_pos h2]
    exact Or.inr ⟨_, _, rfl, h1, inRange_wrap k _ h2, h3, h4⟩

theorem uputc_indices {k : Config} {up : UART} (c : Nat) (h : IndicesOk k up) :
    (uputc k up c = .error (.spin, up) ∧ up.txon = 0) ∨
    (∃ up1, uputc k up c = .ok up1 ∧ IndicesOk k up1) := by
  obtain ⟨h1, h2, h3, h4⟩ := h
  unfold uputc
  by_cases hon : up.txon ≠ 0
  · rw [if_pos hon, if_pos h3]
    exact Or.inr ⟨_, rfl, h1, h2, inRange_wrap k _ h3, h4⟩
  · rw [if_neg hon]
    by_cases hff : up.base.UFR &&& k.TXFF ≠ 0
    · rw [if_pos hff]
      exact Or.inl ⟨rfl, not_not.1 hon⟩
    · rw [if_neg hff]
      exact Or.inr ⟨_, rfl, h1, h2, h3, h4⟩

/-- C13.  Indices stay in range.  If `inhead`, `intail`, `outhead` and
`outtail` are all in `[0, SBUFSIZE)` (so `SBUFSIZE > 0`) before a call of
`do_rx`, `do_tx`, `ugetc`, `uputc` or `uart_handler`, then the call makes no
array access outside `[0, SBUFSIZE)`: its outcome is never the out-of-bounds
one.  If it returns, the four indices are again in `[0, SBUFSIZE)`; `do_rx`
and `do_tx` always return. -/
theorem indices_in_range (k : Config) (up : UART) (op : Op) (h : IndicesOk k up) :
    (∀ st, step k op up ≠ .error (.bounds, st)) ∧
    (∀ up1, step k op up = .ok up1 → IndicesOk k up1) ∧
    (op = .do_rx ∨ op = .do_tx → ∃ up1, step k op up = .ok up1) := by
  cases op with
  | do_rx =>
    obtain ⟨u, e, hu⟩ := do_rx_indices h
    simp only [step]
    rw [e]
    exact ⟨fun st hc => (by cases hc), fun up1 h1 => (by cases h1; exact hu), fun _ => ⟨u, rfl⟩⟩
  | do_tx =>
    obtain ⟨u, e, hu⟩ := do_tx_indices h
    simp only [step]
    rw [e]
    exact ⟨fun st hc => (by cases hc), fun up1 h1 => (by cases h1; exact hu), fun _ => ⟨u, rfl⟩⟩
  | ugetc =>
    simp only [step]
    refine ⟨?_, ?_, fun hc => by cases hc <;> rename_i hc <;> cases hc⟩
    · intro st hc
      rcases ugetc_indices h with ⟨e, _⟩ | ⟨c, u, e, _⟩ <;> rw [e] at hc <;> cases hc
    · intro up1 h1
      rcases ugetc_indices h with ⟨e, _⟩ | ⟨c, u, e, hu⟩ <;> rw [e] at h1 <;> cases h1
      exact hu
  | uputc c =>
    simp only [step]
    refine ⟨?_, ?_, fun hc => by cases hc <;> rename_i hc <;> cases hc⟩
    · intro st hc
      rcases uputc_indices c h with ⟨e, _⟩ | ⟨u, e, _⟩ <;> rw [e] at hc <;> cases hc
    · intro up1 h1
      rcases uputc_indices c h with ⟨e, _⟩ | ⟨u, e, hu⟩ <;> rw [e] at h1 <;> cases h1
      exact hu
  | uart_handler =>
    simp only [step, uart_handler]
    refine ⟨?_, ?_, fun hc => by cases hc <;> rename_i hc <;> cases hc⟩
    · intro st hc
      split at hc
      · obtain ⟨u, e, _⟩ := do_rx_indices h
        rw [e] at hc; cases hc
      · split at hc
        · obtain ⟨u, e, _⟩ := do_tx_indices h
          rw [e] at hc; cases hc
        · cases hc
    · intro up1 h1
      split at h1
      · obtain ⟨u, e, hu⟩ := do_rx_indices h
        rw [e] at h1; cases h1; exact hu
      · split at h1
        · obtain ⟨u, e, hu⟩ := do_tx_indices h
          rw [e] at h1; cases h1; exact hu
        · cases h1

/-- C13 on a 4-byte port with `inhead` at the last slot: `do_rx` returns and
`inhead` wraps to 0. -/
theorem indices_in_range_witness :
    IndicesOk tiny { idlePort tiny with inhead := 3, intail := 3 } ∧
    (step tiny .do_rx { idlePort tiny with inhead := 3, intail := 3 }).toOption.map
      (fun u => (u.inhead, u.intail, u.outhead, u.outtail)) = some (0, 3, 0, 0) ∧
    step tiny .do_rx { idlePort tiny with inhead := 3, intail := 3 }
      ≠ .error (.bounds, { idlePort tiny with inhead := 3, intail := 3 }) :=
  ⟨by decide, rfl,
   (indices_in_range tiny { idlePort tiny with inhead := 3, intail := 3 } .do_rx
     (by decide)).1 _⟩

/-! ## C16: who changes `txon` -/

theorem do_tx_txon {k : Config} {up up1 : UART} (h : do_tx k up = .ok up1) :
    (up.outdata ≤ 0 ∧ up1 = do_tx_idle k up) ∨ (0 < up.outdata ∧ up1.txon = up.txon) := by
  unfold do_tx at h
  by_cases hd : up.outdata ≤ 0
  · rw [if_pos hd] at h
    cases h
    exact Or.inl ⟨hd, rfl⟩
  · rw [if_neg hd] at h
    split at h
    · cases h
      exact Or.inr ⟨by omega, rfl⟩
    · cases h

theorem ugetc_txon {k : Config} {up up1 : UART} {c : Nat} (h : ugetc k up = .ok (c, up1)) :
    up1.txon = up.txon := by
  unfold ugetc at h
  split at h
  · cases h
  · split at h
    · cases h; rfl
    · cases h

theorem uputc_txon {k : Config} {up up1 : UART} {c : Nat} (h : uputc k up c = .ok up1) :
    (up.txon ≠ 0 ∧ up1.txon = up.txon) ∨
    (up.txon = 0 ∧ up.base.UFR &&& k.TXFF = 0 ∧ up1 = uputc_d3 (uputc_d2 k (uputc_d1 up)) c) := by
  unfold uputc at h
  by_cases hon : up.txon ≠ 0
  · rw [if_pos hon] at h
    split at h
    · cases h
      exact Or.inl ⟨hon, rfl⟩
    · cases h
  · rw [if_neg hon] at h
    by_cases hff : up.base.UFR &&& k.TXFF ≠ 0
    · rw [if_pos hff] at h
      cases h
    · rw [if_neg hff] at h
      cases h
      exact Or.inr ⟨not_not.1 hon, not_not.1 hff, rfl⟩

/-- C16.  Ownership of the `txon` transitions.  For a call of `do_rx`,
`do_tx`, `ugetc`, `uputc` or `uart_handler` that returns: if `txon` is false
before and true after, the call is `uputc` on its direct-mode path (`txon`
false, `TXFF` clear, the three direct-mode statements executed); if `txon` is
true before and false after, the call is `do_tx`, made directly or by
`uart_handler` on a status byte with `RX_BIT` clear and `TX_BIT` set, run with
`outdata <= 0` on its empty-buffer branch; `do_rx` and `ugetc` never change
`txon`. -/
theorem txon_ownership (k : Config) (up up1 : UART) (op : Op)
    (h : step k op up = .ok up1) :
    (up.txon = 0 → up1.txon ≠ 0 →
      ∃ c, op = .uputc c ∧ up.base.UFR &&& k.TXFF = 0 ∧
        up1 = uputc_d3 (uputc_d2 k (uputc_d1 up)) c) ∧
    (up.txon ≠ 0 → up1.txon = 0 →
      (op = .do_tx ∨
        (op = .uart_handler ∧ up.base.MIS % 256 &&& k.RX_BIT = 0 ∧
          up.base.MIS % 256 &&& k.TX_BIT ≠ 0)) ∧
      up.outdata ≤ 0 ∧ up1 = do_tx_idle k up) ∧
    (op = .do_rx ∨ op = .ugetc → up1.txon = up.txon) := by
  cases op with
  | do_rx =>
    have ht := (do_rx_frame h).2.1
    exact ⟨fun h0 h1 => absurd (ht.trans h0) h1,
      fun h0 h1 => absurd (ht.symm.trans h1) h0, fun _ => ht⟩
  | do_tx =>
    refine ⟨fun h0 h1 => ?_, fun h0 h1 => ?_, fun hc => by cases hc <;> rename_i hc <;> cases hc⟩
    · rcases do_tx_txon h with ⟨_, e⟩ | ⟨_, e⟩
      · rw [e] at h1
        exact absurd rfl h1
      · exact absurd (e.trans h0) h1
    · rcases do_tx_txon h with ⟨hd, e⟩ | ⟨_, e⟩
      · exact ⟨Or.inl rfl, hd, e⟩
      · exact absurd (e.symm.trans h1) h0
  | ugetc =>
    simp only [step] at h
    cases hg : ugetc k up with
    | error e => rw [hg] at h; cases h
    | ok r =>
      obtain ⟨c, u⟩ := r
      rw [hg] at h
      cases h
      have ht : u.txon = up.txon := ugetc_txon hg
      exact ⟨fun h0 h1 => absurd (ht.trans h0) h1,
        fun h0 h1 => absurd (ht.symm.trans h1) h0, fun _ => ht⟩
  | uputc c =>
    refine ⟨fun h0 h1 => ?_, fun h0 h1 => ?_, fun hc => by cases hc <;> rename_i hc <;> cases hc⟩
    · rcases uputc_txon h with ⟨hon, _⟩ | ⟨_, hff, e⟩
      · exact absurd h0 hon
      · exact ⟨c, rfl, hff, e⟩
    · rcases uputc_txon h with ⟨_, e⟩ | ⟨hoff, _⟩
      · exact absurd (e.symm.trans h1) h0
      · exact absurd hoff h0
  | uart_handler =>
    simp only [step, uart_handler] at h
    refine ⟨fun h0 h1 => ?_, fun h0 h1 => ?_, fun hc => by cases hc <;> rename_i hc <;> cases hc⟩
    · by_cases hrx : up.base.MIS % 256 &&& k.RX_BIT ≠ 0
      · rw [if_pos hrx] at h
        have ht := (do_rx_frame h).2.1
        exact absurd (ht.trans h0) h1
      · rw [if_neg hrx] at h
        split at h
        · rcases do_tx_txon h with ⟨_, e⟩ | ⟨_, e⟩
          · rw [e] at h1
            exact absurd rfl h1
          · exact absurd (e.trans h0) h1
        · cases h
    · by_cases hrx : up.base.MIS % 256 &&& k.RX_BIT ≠ 0
      · rw [if_pos hrx] at h
        have ht := (do_rx_frame h).2.1
        exact absurd (ht.symm.trans h1) h0
      · rw [if_neg hrx] at h
        by_cases htx : up.base.MIS % 256 &&& k.TX_BIT ≠ 0
        · rw [if_pos htx] at h
          rcases do_tx_txon h with ⟨hd, e⟩ | ⟨_, e⟩
          · exact ⟨Or.inr ⟨rfl, not_not.1 hrx, htx⟩, hd, e⟩
          · exact absurd (e.symm.trans h1) h0
        · rw [if_neg htx] at h
          cases h

/-- C16 on the port at rest: `uputc(65)` raises `txon` on its direct-mode
path, and the `do_tx` that follows, run with `outdata = 0`, lowers it. -/
theorem txon_ownership_witness :
    step pl011 (.uputc 65) (idlePort pl011)
      = .ok (uputc_d3 (uputc_d2 pl011 (uputc_d1 (idlePort pl011))) 65) ∧
    (idlePort pl011).txon = 0 ∧
    (uputc_d3 (uputc_d2 pl011 (uputc_d1 (idlePort pl011))) 65).txon ≠ 0 ∧
    (idlePort pl011).base.UFR &&& pl011.TXFF = 0 ∧
    step pl011 .do_tx (uputc_d3 (uputc_d2 pl011 (uputc_d1 (idlePort pl011))) 65)
      = .ok (do_tx_idle pl011 (uputc_d3 (uputc_d2 pl011 (uputc_d1 (idlePort pl011))) 65)) ∧
    (do_tx_idle pl011 (uputc_d3 (uputc_d2 pl011 (uputc_d1 (idlePort pl011))) 65)).txon = 0 ∧
    (uputc_d3 (uputc_d2 pl011 (uputc_d1 (idlePort pl011))) 65).outdata ≤ 0 := by
  have h1 := (txon_ownership pl011 (idlePort pl011)
    (uputc_d3 (uputc_d2 pl011 (uputc_d1 (idlePort pl011))) 65) (.uputc 65) rfl).1
    rfl (by decide)
  have h2 := (txon_ownership pl011 (uputc_d3 (uputc_d2 pl011 (uputc_d1 (idlePort pl011))) 65)
    (do_tx_idle pl011 (uputc_d3 (uputc_d2 pl011 (uputc_d1 (idlePort pl011))) 65)) .do_tx rfl).2.1
    (by decide) rfl
  obtain ⟨c, _, hff, _⟩ := h1
  exact ⟨rfl, rfl, by decide, hff, rfl, rfl, h2.2.1⟩

/-! ## C14: the order of the direct-mode statements -/

/-- C14.  Direct-mode ordering.  With `txon` false and `TXFF` clear,
`uputc(c)` returns the state its three direct-mode statements produce, run in
source order, and the port goes through exactly these states: first `txon`
set to 1 with everything else (`IMSC` included) as before; then `IMSC` set to
its previous value OR-ed with `RX_BIT | TX_BIT`, every bit outside that mask
keeping its value; then `c` appended to the values written to the data
register.  So `txon` is already 1 in the state in which `TX_BIT` becomes
enabled, and `outbuf`, `outhead`, `outdata`, `outroom` are never modified. -/
theorem direct_mode_order (k : Config) (up : UART) (c : Nat)
    (hoff : up.txon = 0) (hff : up.base.UFR &&& k.TXFF = 0) :
    uputc k up c = .ok (runStmts (uputc_direct k c) up) ∧
    traceStmts (uputc_direct k c) up =
      [ { up with txon := 1 },
        { up with txon := 1,
                  base := { up.base with IMSC := up.base.IMSC ||| (k.RX_BIT ||| k.TX_BIT) } },
        { up with txon := 1,
                  base := { up.base with IMSC := up.base.IMSC ||| (k.RX_BIT ||| k.TX_BIT),
                                         sent := up.base.sent ++ [c] } } ] ∧
    (∀ i, (k.RX_BIT ||| k.TX_BIT).testBit i = false →
      (up.base.IMSC ||| (k.RX_BIT ||| k.TX_BIT)).testBit i = up.base.IMSC.testBit i) ∧
    (up.base.IMSC ||| (k.RX_BIT ||| k.TX_BIT)) &&& k.TX_BIT = k.TX_BIT := by
  refine ⟨uputc_direct_eq c hoff hff, rfl, fun i hi => ?_, or_mask_right _ _ _⟩
  rw [Nat.testBit_or, hi, Bool.or_false]

/-- C14 on the port at rest with the PL011 constants and `IMSC = 0x40`: the
port goes through `txon = 1` with `IMSC = 0x40`, then `IMSC = 0x70`, then 65
written. -/
theorem direct_mode_order_witness :
    ({ idlePort pl011 with base := { (idlePort pl011).base with IMSC := 0x40 } } : UART).txon = 0 ∧
    (traceStmts (uputc_direct pl011 65)
      { idlePort pl011 with base := { (idlePort pl011).base with IMSC := 0x40 } }).map
      (fun u => (u.txon, u.base.IMSC, u.base.sent, u.outdata))
      = [(1, 0x40, [], 0), (1, 0x70, [], 0), (1, 0x70, [65], 0)] ∧
    (uputc pl011 { idlePort pl011 with base := { (idlePort pl011).base with IMSC := 0x40 } }
      65).toOption.map (fun u => (u.txon, u.base.IMSC, u.base.sent, u.outdata))
      = some (1, 0x70, [65], 0) := by
  obtain ⟨h1, h2, _, _⟩ := direct_mode_order pl011
    { idlePort pl011 with base := { (idlePort pl011).base with IMSC := 0x40 } } 65 rfl rfl
  refine ⟨rfl, ?_, ?_⟩
  · rw [h2]; rfl
  · rw [h1]; rfl

/-! ## C17: overflow overwrites the oldest byte -/

/-- C17.  Silent overwrite on overflow.  On a port whose receive buffer is
full (`indata == SBUFSIZE`, `inroom == 0`, `inhead == intail`, a legal index)
`do_rx` returns without any check, having stored the received byte over
`inbuf[intail]`, the oldest unread byte, with `indata == SBUFSIZE + 1` and
`inroom == -1`; the next `ugetc` returns the received byte.  Likewise on a
busy port whose transmit buffer is full `uputc(c)` returns having stored `c`
over `outbuf[outtail]`, with `outdata == SBUFSIZE + 1` and `outroom == -1`,
and the next `do_tx` sends `c`. -/
theorem overflow_overwrites (k : Config) (up : UART) (c : Nat) :
    (up.indata = k.SBUFSIZE → up.inroom = 0 → up.inhead = up.intail →
      inRange k up.intail →
      ∃ up1 up2, do_rx k up = .ok up1 ∧
        up1.inbuf up.intail = up.base.UDR % 256 ∧ up1.intail = up.intail ∧
        up1.indata = (k.SBUFSIZE : Int) + 1 ∧ up1.inroom = -1 ∧
        ugetc k up1 = .ok (up.base.UDR % 256, up2)) ∧
    (up.txon ≠ 0 → up.outdata = k.SBUFSIZE → up.outroom = 0 → up.outhead = up.outtail →
      inRange k up.outtail →
      ∃ up1 up2, uputc k up c = .ok up1 ∧
        up1.outbuf up.outtail = c ∧ up1.outtail = up.outtail ∧
        up1.outdata = (k.SBUFSIZE : Int) + 1 ∧ up1.outroom = -1 ∧
        do_tx k up1 = .ok up2 ∧ up2.base.sent = up.base.sent ++ [c]) := by
  constructor
  · intro hd hr hh hin
    have hN : (0 : Int) < k.SBUFSIZE := by
      have := hin.1
      have := hin.2
      omega
    have hdo : do_rx k up = .ok
        { up with inbuf := Function.update up.inbuf up.intail (up.base.UDR % 256),
                  inhead := Int.tmod (up.intail + 1) k.SBUFSIZE,
                  indata := up.indata + 1, inroom := up.inroom - 1 } := by
      unfold do_rx
      rw [if_pos (show inRange k up.inhead from hh ▸ hin), hh]
    have hget : ugetc k
        { up with inbuf := Function.update up.inbuf up.intail (up.base.UDR % 256),
                  inhead := Int.tmod (up.intail + 1) k.SBUFSIZE,
                  indata := up.indata + 1, inroom := up.inroom - 1 }
        = .ok (up.base.UDR % 256, ugetc_s4 (ugetc_s3 (ugetc_s2 k (ugetc_s1
          { up with inbuf := Function.update up.inbuf up.intail (up.base.UDR % 256),
                    inhead := Int.tmod (up.intail + 1) k.SBUFSIZE,
                    indata := up.indata + 1, inroom := up.inroom - 1 })))) := by
      unfold ugetc
      rw [if_neg (show ¬ up.indata + 1 ≤ 0 by omega), if_pos (show inRange k up.intail from hin)]
      show Except.ok (Function.update up.inbuf up.intail (up.base.UDR % 256) up.intail, _) = _
      rw [Function.update_same]
    refine ⟨_, _, hdo, ?_, rfl, ?_, ?_, hget⟩
    · exact Function.update_same _ _ _
    · show up.indata + 1 = (k.SBUFSIZE : Int) + 1
      rw [hd]
    · show up.inroom - 1 = -1
      rw [hr]; rfl
  · intro hon hd hr hh hin
    have hN : (0 : Int) < k.SBUFSIZE := by
      have := hin.1
      have := hin.2
      omega
    have hdo : uputc k up c = .ok
        { up with outbuf := Function.update up.outbuf up.outtail c,
                  outhead := Int.tmod (up.outtail + 1) k.SBUFSIZE,
                  outdata := up.outdata + 1, outroom := up.outroom - 1 } := by
      unfold uputc
      rw [if_pos hon, if_pos (show inRange k up.outhead from hh ▸ hin)]
      simp only [uputc_b4, uputc_b3, uputc_b2, uputc_b1, uputc_b0]
      rw [hh]
    have htx : do_tx k
        { up with outbuf := Function.update up.outbuf up.outtail c,
                  outhead := Int.tmod (up.outtail + 1) k.SBUFSIZE,
                  outdata := up.outdata + 1, outroom := up.outroom - 1 }
        = .ok (do_tx_drain k
          { up with outbuf := Function.update up.outbuf up.outtail c,
                    outhead := Int.tmod (up.outtail + 1) k.SBUFSIZE,
                    outdata := up.outdata + 1, outroom := up.outroom - 1 }) := by
      unfold do_tx
      rw [if_neg (show ¬ up.outdata + 1 ≤ 0 by omega),
        if_pos (show inRange k up.outtail from hin)]
    refine ⟨_, _, hdo, ?_, rfl, ?_, ?_, htx, ?_⟩
    · exact Function.update_same _ _ _
    · show up.outdata + 1 = (k.SBUFSIZE : Int) + 1
      rw [hd]
    · show up.outroom - 1 = -1
      rw [hr]; rfl
    · show up.base.sent ++ [Function.update up.outbuf up.outtail c up.outtail] = _
      rw [Function.update_same]

/-- C17 on the full 4-byte ports: `do_rx` puts 99 over the oldest byte 10 and
the next `ugetc` returns 99; `uputc(77)` puts 77 over the oldest byte 10 and
the next `do_tx` sends 77. -/
theorem overflow_overwrites_witness :
    (fullRxPort.indata = tiny.SBUFSIZE ∧ fullRxPort.inroom = 0 ∧
      fullRxPort.inhead = fullRxPort.intail ∧ inRange tiny fullRxPort.intail) ∧
    fullRxPort.inbuf fullRxPort.intail = 10 ∧
    ((do_rx tiny fullRxPort).toOption.bind (fun u => (ugetc tiny u).toOption)).map
      (fun r => (r.1, r.2.indata, r.2.inroom)) = some (99, 4, 0) ∧
    (do_rx tiny fullRxPort).toOption.map (fun u => (u.inbuf 0, u.indata, u.inroom))
      = some (99, 5, -1) ∧
    (uputc tiny fullTxPort 77).toOption.map (fun u => (u.outbuf 0, u.outdata, u.outroom))
      = some (77, 5, -1) := by
  have h := (overflow_overwrites tiny fullRxPort 77).1 rfl rfl rfl (by decide)
  have h2 := (overflow_overwrites tiny fullTxPort 77).2 (by decide) rfl rfl rfl (by decide)
  obtain ⟨u1, u2, e1, a1, _, a3, a4, _⟩ := h
  obtain ⟨v1, v2, f1, b1, _, b3, b4, _⟩ := h2
  refine ⟨⟨rfl, rfl, rfl, by decide⟩, rfl, rfl, ?_, ?_⟩
  · rw [e1]
    show some (u1.inbuf fullRxPort.intail, u1.indata, u1.inroom) = _
    rw [a1, a3, a4]; rfl
  · rw [f1]
    show some (v1.outbuf fullTxPort.outtail, v1.outdata, v1.outroom) = _
    rw [b1, b3, b4]; rfl

/-! ## C18: `do_rx` inside the critical section of `ugetc` -/

theorem ugetc_is_section (k : Config) (up : UART) :
    ugetc k up =
      if up.indata ≤ 0 then .error (.spin, up)
      else if inRange k up.intail then
        .ok (up.inbuf up.intail, runStmts (ugetc_section k) up)
      else .error (.bounds, up) := rfl

theorem section_effect (k : Config) (pos : Nat) :
    ∃ dP rP dS rS : Int, dP + dS = -1 ∧ rP + rS = 1 ∧ ∀ x : UART,
      (runStmts ((ugetc_section k).take pos) x).indata = x.indata + dP ∧
      (runStmts ((ugetc_section k).take pos) x).inroom = x.inroom + rP ∧
      (runStmts ((ugetc_section k).take pos) x).inhead = x.inhead ∧
      (runStmts ((ugetc_section k).drop pos) x).indata = x.indata + dS ∧
      (runStmts ((ugetc_section k).drop pos) x).inroom = x.inroom + rS := by
  rcases pos with _ | _ | _ | _ | n
  · exact ⟨0, 0, -1, 1, by decide, by decide, fun x =>
      ⟨(Int.add_zero _).symm, (Int.add_zero _).symm, rfl, rfl, rfl⟩⟩
  · exact ⟨0, 0, -1, 1, by decide, by decide, fun x =>
      ⟨(Int.add_zero _).symm, (Int.add_zero _).symm, rfl, rfl, rfl⟩⟩
  · exact ⟨0, 0, -1, 1, by decide, by decide, fun x =>
      ⟨(Int.add_zero _).symm, (Int.add_zero _).symm, rfl, rfl, rfl⟩⟩
  · exact ⟨-1, 0, 0, 1, by decide, by decide, fun x =>
      ⟨rfl, (Int.add_zero _).symm, rfl, (Int.add_zero _).symm, rfl⟩⟩
  · have e1 : (ugetc_section k).take (n + 1 + 1 + 1 + 1) = ugetc_section k := by
      simp [ugetc_section]
    have e2 : (ugetc_section k).drop (n + 1 + 1 + 1 + 1) = [] := by
      simp [ugetc_section]
    rw [e1, e2]
    exact ⟨-1, 1, 0, 0, by decide, by decide, fun x =>
      ⟨rfl, rfl, rfl, (Int.add_zero _).symm, (Int.add_zero _).symm⟩⟩

/-- C18.  Receive-side interleaving safety.  Split the critical section of
`ugetc` into its statements `intail++`, `intail %= SBUFSIZE`, `indata--`,
`inroom++` and run one complete `do_rx` after the first `pos` of them, for any
`pos` (before the first, between two, after the last).  From a state with
`indata + inroom == SBUFSIZE` and `indata > 0`, whenever `ugetc` finishes the
state has `indata + inroom == SBUFSIZE`; and it does finish when `intail` and
`inhead` are legal indices. -/
theorem rx_interleaving (k : Config) (up : UART) (pos : Nat)
    (hinv : up.indata + up.inroom = k.SBUFSIZE) (hpos : 0 < up.indata) :
    (∀ c up1, ugetc_rx_at k pos up = .ok (c, up1) →
      up1.indata + up1.inroom = k.SBUFSIZE) ∧
    (inRange k up.intail → inRange k up.inhead →
      ∃ c up1, ugetc_rx_at k pos up = .ok (c, up1)) := by
  obtain ⟨dP, rP, dS, rS, hd, hr, heff⟩ := section_effect k pos
  constructor
  · intro c up1 h
    unfold ugetc_rx_at at h
    rw [if_neg (by omega)] at h
    split at h
    · simp only [] at h
      cases hdo : do_rx k (runStmts (List.take pos (ugetc_section k)) up) with
      | error e => rw [hdo] at h; cases h
      | ok u =>
        rw [hdo] at h
        simp only [] at h
        cases h
        obtain ⟨h1, h2, _, _⟩ := do_rx_counters hdo
        obtain ⟨a1, a2, _, _, _⟩ := heff up
        obtain ⟨_, _, _, a4, a5⟩ := heff u
        rw [a4, a5, h1, h2, a1, a2]
        omega
    · cases h
  · intro hit hih
    unfold ugetc_rx_at
    rw [if_neg (by omega), if_pos hit]
    simp only []
    have hret : ∃ u, do_rx k (runStmts (List.take pos (ugetc_section k)) up) = .ok u := by
      apply do_rx_returns
      rw [(heff up).2.2.1]
      exact hih
    obtain ⟨u, hu⟩ := hret
    rw [hu]
    exact ⟨_, _, rfl⟩

/-- C18 on the 4-byte port holding one byte, with `do_rx` run between
`indata--` and `inroom++`: `ugetc` ends with `indata = 1`, `inroom = 3`. -/
theorem rx_interleaving_witness :
    oneByteRxPort.indata + oneByteRxPort.inroom = tiny.SBUFSIZE ∧
    0 < oneByteRxPort.indata ∧
    (ugetc_rx_at tiny 3 oneByteRxPort).toOption.map
      (fun r => (r.1, r.2.indata, r.2.inroom, r.2.inhead, r.2.intail)) = some (65, 1, 3, 2, 1) ∧
    (ugetc_rx_at tiny 3 oneByteRxPort).toOption.map (fun r => r.2.indata + r.2.inroom)
      = some (tiny.SBUFSIZE : Int) := by
  obtain ⟨h1, h2⟩ := rx_interleaving tiny oneByteRxPort 3 rfl (by decide)
  obtain ⟨c, u, e⟩ := h2 (by decide) (by decide)
  have h3 := h1 c u e
  refine ⟨rfl, by decide, rfl, ?_⟩
  rw [e]
  show some (u.indata + u.inroom) = _
  rw [h3]

/-! ## C20: `do_rx` and `ugetc` commute -/

theorem do_rx_eq (k : Config) (up : UART) (hin : inRange k up.inhead) :
    do_rx k up = .ok
      { up with inbuf := Function.update up.inbuf up.inhead (up.base.UDR % 256),
                inhead := Int.tmod (up.inhead + 1) k.SBUFSIZE,
                indata := up.indata + 1, inroom := up.inroom - 1 } := by
  unfold do_rx
  rw [if_pos hin]

theorem ugetc_eq (k : Config) (up : UART) (hd : 0 < up.indata) (hin : inRange k up.intail) :
    ugetc k up = .ok (up.inbuf up.intail,
      { up with intail := Int.tmod (up.intail + 1) k.SBUFSIZE,
                indata := up.indata - 1, inroom := up.inroom + 1 }) := by
  unfold ugetc
  rw [if_neg (by omega), if_pos hin]
  rfl

/-- C20.  Producer and consumer commute.  On a receive side with legal
indices, `0 < indata < SBUFSIZE` and `indata` congruent to `inhead - intail`
modulo `SBUFSIZE`, for every value `b` in the data register, `do_rx` then
`ugetc` gives the same returned byte and the same final port as `ugetc` then
`do_rx`, and both return. -/
theorem rx_getc_commute (k : Config) (up : UART) (b : Nat)
    (hh : inRange k up.inhead) (ht : inRange k up.intail)
    (h0 : 0 < up.indata) (h1 : up.indata < k.SBUFSIZE)
    (hc : (k.SBUFSIZE : Int) ∣ up.indata - (up.inhead - up.intail)) :
    rx_then_getc k up b = getc_then_rx k up b ∧
    ∃ c up1, getc_then_rx k up b = .ok (c, up1) := by
  have hne : up.intail ≠ up.inhead := by
    intro e
    rw [e, sub_self, sub_zero] at hc
    have := Int.le_of_dvd h0 hc
    omega
  have hA : rx_then_getc k up b = .ok (up.inbuf up.intail,
      { present up b with
        inbuf := Function.update up.inbuf up.inhead (b % 256),
        inhead := Int.tmod (up.inhead + 1) k.SBUFSIZE,
        intail := Int.tmod (up.intail + 1) k.SBUFSIZE,
        indata := up.indata, inroom := up.inroom }) := by
    unfold rx_then_getc
    rw [do_rx_eq k (present up b) hh]
    simp only []
    refine (ugetc_eq k _ ?_ ?_).trans ?_
    · show 0 < up.indata + 1
      omega
    · exact ht
    simp only [present, deviceInput, Function.update_noteq hne, Int.add_sub_cancel,
      Int.sub_add_cancel]
  have hB : getc_then_rx k up b = .ok (up.inbuf up.intail,
      { present up b with
        inbuf := Function.update up.inbuf up.inhead (b % 256),
        inhead := Int.tmod (up.inhead + 1) k.SBUFSIZE,
        intail := Int.tmod (up.intail + 1) k.SBUFSIZE,
        indata := up.indata, inroom := up.inroom }) := by
    unfold getc_then_rx
    rw [ugetc_eq k up h0 ht]
    simp only []
    rw [do_rx_eq k (present { up with intail := Int.tmod (up.intail + 1) k.SBUFSIZE,
                                      indata := up.indata - 1,
                                      inroom := up.inroom + 1 } b) hh]
    simp only [present, deviceInput, Int.add_sub_cancel, Int.sub_add_cancel]
  exact ⟨hA.trans hB.symm, _, _, hB⟩

/-- C20 on the 4-byte port holding one byte with 66 arriving: in both orders
65 is returned and the port ends holding 66 alone. -/
theorem rx_getc_commute_witness :
    inRange tiny oneByteRxPort.inhead ∧ inRange tiny oneByteRxPort.intail ∧
    0 < oneByteRxPort.indata ∧ oneByteRxPort.indata < tiny.SBUFSIZE ∧
    (tiny.SBUFSIZE : Int) ∣
      oneByteRxPort.indata - (oneByteRxPort.inhead - oneByteRxPort.intail) ∧
    rx_then_getc tiny oneByteRxPort 66 = getc_then_rx tiny oneByteRxPort 66 ∧
    (rx_then_getc tiny oneByteRxPort 66).toOption.map
      (fun r => (r.1, r.2.inbuf 1, r.2.indata, r.2.inroom, r.2.inhead, r.2.intail))
      = some (65, 66, 1, 3, 2, 1) :=
  ⟨by decide, by decide, by decide, by decide, ⟨0, by decide⟩,
   (rx_getc_commute tiny oneByteRxPort 66 (by decide) (by decide) (by decide) (by decide)
     ⟨0, by decide⟩).1,
   rfl⟩

/-! ## C19: `do_tx` between the test of `txon` and the critical section of `uputc` -/

/-- C19.  A byte is stranded when `uputc` is preempted on its buffering path.
On the busy port with an empty transmit buffer (`txon` true, `outdata = 0`,
65 in flight), let `do_tx` run right after `uputc(66)` has tested `txon`, or
right after it has stored 66 in `outbuf[0]`.  `do_tx` finds the buffer empty,
writes `RX_BIT` to `IMSC` and clears `txon`; `uputc` then completes its
buffering path.  It returns with `txon` false, `outdata = 1`, 66 in
`outbuf[0]`, the transmit interrupt masked and only 65 ever written to the
data register.  Run without preemption from the same port, `uputc(66)` and
then `do_tx` send 66. -/
theorem uputc_preempted_strands_byte :
    (busyPort pl011).txon = 1 ∧ (busyPort pl011).outdata = 0 ∧
    (busyPort pl011).base.sent = [65] ∧
    (uputc_tx_at pl011 .afterTest (busyPort pl011) 66).toOption.map
      (fun u => (u.txon, u.outdata, u.outbuf 0, u.base.sent, u.base.IMSC))
      = some (0, 1, 66, [65], 0x10) ∧
    (uputc_tx_at pl011 .afterStore (busyPort pl011) 66).toOption.map
      (fun u => (u.txon, u.outdata, u.outbuf 0, u.base.sent, u.base.IMSC))
      = some (0, 1, 66, [65], 0x10) ∧
    ((uputc pl011 (busyPort pl011) 66).toOption.bind
      (fun u => (do_tx pl011 u).toOption)).map
      (fun u => (u.txon, u.outdata, u.base.sent, u.base.IMSC))
      = some (1, 0, [65, 66], 0x30) :=
  ⟨rfl, rfl, rfl, rfl, rfl, rfl⟩

/-! ## C12: the counters and the ring contents -/

theorem do_rx_txside {k : Config} {up up1 : UART} (h : do_rx k up = .ok up1)
    (hs : TxSide k up) : TxSide k up1 := by
  unfold do_rx at h
  split at h
  · cases h; exact hs
  · cases h

theorem ugetc_txside {k : Config} {up up1 : UART} {c : Nat} (h : ugetc k up = .ok (c, up1))
    (hs : TxSide k up) : TxSide k up1 := by
  unfold ugetc at h
  split at h
  · cases h
  · split at h
    · cases h; exact hs
    · cases h

theorem uputc_rxside {k : Config} {up up1 : UART} {c : Nat} (h : uputc k up c = .ok up1)
    (hs : RxSide k up) : RxSide k up1 := by
  unfold uputc at h
  split at h
  · split at h
    · cases h; exact hs
    · cases h
  · split at h
    · cases h
    · cases h; exact hs

theorem do_tx_rxside {k : Config} {up up1 : UART} (h : do_tx k up = .ok up1)
    (hs : RxSide k up) : RxSide k up1 := by
  unfold do_tx at h
  split at h
  · cases h; exact hs
  · split at h
    · cases h; exact hs
    · cases h

theorem do_rx_rxside {k : Config} {up up1 : UART} (h : do_rx k up = .ok up1)
    (hroom : up.inroom ≠ 0) (hs : RxSide k up) : RxSide k up1 := by
  rcases hs with ⟨q, hq⟩ | ⟨_, _, hout⟩
  · obtain ⟨u, e, hu⟩ := do_rx_holds hq hroom
    rw [e] at h
    cases h
    exact Or.inl ⟨_, hu⟩
  · unfold do_rx at h
    rw [if_neg hout] at h
    cases h

theorem ugetc_rxside {k : Config} {up up1 : UART} {c : Nat} (h : ugetc k up = .ok (c, up1))
    (hs : RxSide k up) : RxSide k up1 := by
  have hpos : ¬ up.indata ≤ 0 := by
    intro hle
    unfold ugetc at h
    rw [if_pos hle] at h
    cases h
  rcases hs with ⟨q, hq⟩ | ⟨h0, _, _⟩
  · cases q with
    | nil =>
      have := hq.1.2.2.1
      simp at this
      omega
    | cons b q =>
      obtain ⟨u, e, hu⟩ := ugetc_holds hq
      rw [e] at h
      cases h
      exact Or.inl ⟨_, hu⟩
  · omega

theorem uputc_txside {k : Config} {up up1 : UART} {c : Nat} (h : uputc k up c = .ok up1)
    (hroom : up.txon ≠ 0 → up.outroom ≠ 0) (hs : TxSide k up) : TxSide k up1 := by
  by_cases hon : up.txon ≠ 0
  · rcases hs with ⟨q, hq⟩ | ⟨_, _, hout⟩
    · obtain ⟨u, e, hu, _⟩ := uputc_buffer_holds c hq hon (hroom hon)
      rw [e] at h
      cases h
      exact Or.inl ⟨_, hu⟩
    · unfold uputc at h
      rw [if_pos hon, if_neg hout] at h
      cases h
  · unfold uputc at h
    rw [if_neg hon] at h
    split at h
    · cases h
    · cases h; exact hs

theorem do_tx_txside {k : Config} {up up1 : UART} (h : do_tx k up = .ok up1)
    (hs : TxSide k up) : TxSide k up1 := by
  by_cases hd : up.outdata ≤ 0
  · unfold do_tx at h
    rw [if_pos hd] at h
    cases h
    exact hs
  · rcases hs with ⟨q, hq⟩ | ⟨h0, _, _⟩
    · cases q with
      | nil =>
        have := hq.1.2.2.1
        simp at this
        omega
      | cons b q =>
        obtain ⟨u, e, hu, _⟩ := do_tx_drain_holds hq
        rw [e] at h
        cases h
        exact Or.inl ⟨_, hu⟩
    · omega

theorem ring_count {N : Nat} {buf : Int → Nat} {head tail data : Int} {q : List Nat}
    (h : RingHolds N buf head tail data q) :
    0 ≤ data ∧ data ≤ (N : Int) ∧ (N : Int) ∣ data - (head - tail) := by
  obtain ⟨_, _, h2, h3, h4, _⟩ := h
  refine ⟨by omega, by omega, ?_⟩
  rw [h2, h4]
  refine ⟨(tail + (q.length : Int)) / (N : Int), ?_⟩
  have := Int.emod_add_ediv (tail + (q.length : Int)) (N : Int)
  omega

theorem sides_count {k : Config} {up : UART} (hr : RxSide k up) (ht : TxSide k up) :
    CountMatches k up := by
  constructor
  · rcases hr with ⟨q, hq⟩ | ⟨h0, h1, _⟩
    · exact ring_count hq.1
    · rw [h0, h1]
      exact ⟨le_refl _, Int.ofNat_nonneg _, by simp⟩
  · rcases ht with ⟨q, hq⟩ | ⟨h0, h1, _⟩
    · exact ring_count hq.1
    · rw [h0, h1]
      exact ⟨le_refl _, Int.ofNat_nonneg _, by simp⟩

theorem runPort_sides (k : Config) (evs : List PortEv) :
    ∀ (up up1 : UART), RxSide k up → TxSide k up → NoOverflow k up evs →
      runPort k up evs = .ok up1 → RxSide k up1 ∧ TxSide k up1 := by
  induction evs with
  | nil =>
    intro up up1 hr ht _ hrun
    simp only [runPort] at hrun
    cases hrun
    exact ⟨hr, ht⟩
  | cons e es ih =>
    intro up up1 hr ht hno hrun
    cases e with
    | rx v =>
      obtain ⟨hroom, hno1⟩ := hno
      simp only [runPort] at hrun
      cases hdo : do_rx k (present up v) with
      | error e => rw [hdo] at hrun; cases hrun
      | ok u =>
        rw [hdo] at hrun hno1
        exact ih u up1 (do_rx_rxside hdo hroom hr) (do_rx_txside hdo ht) hno1 hrun
    | getc =>
      simp only [runPort] at hrun
      simp only [NoOverflow] at hno
      cases hdo : ugetc k up with
      | error e => rw [hdo] at hrun; cases hrun
      | ok r =>
        obtain ⟨c, u⟩ := r
        rw [hdo] at hrun hno
        exact ih u up1 (ugetc_rxside hdo hr) (ugetc_txside hdo ht) hno hrun
    | put c =>
      obtain ⟨hroom, hno1⟩ := hno
      simp only [runPort] at hrun
      cases hdo : uputc k up c with
      | error e => rw [hdo] at hrun; cases hrun
      | ok u =>
        rw [hdo] at hrun hno1
        exact ih u up1 (uputc_rxside hdo hr) (uputc_txside hdo hroom ht) hno1 hrun
    | tx =>
      simp only [runPort] at hrun
      simp only [NoOverflow] at hno
      cases hdo : do_tx k up with
      | error e => rw [hdo] at hrun; cases hrun
      | ok u =>
        rw [hdo] at hrun hno
        exact ih u up1 (do_tx_rxside hdo hr) (do_tx_txside hdo ht) hno hrun

/-- C12, as stated, fails.  On the 4-byte port at rest five `do_rx` calls in
a row all return and leave `indata = 5`, above `SBUFSIZE`, with `inroom = -1`:
the fifth byte has overwritten the first, and `indata` is no longer the number
of bytes between `intail` and `inhead`. -/
theorem count_matches_counterexample :
    RxEmpty tiny (idlePort tiny) ∧ TxIdle tiny (idlePort tiny) ∧
    IndicesOk tiny (idlePort tiny) ∧
    (runPort tiny (idlePort tiny) rxFlood).toOption.map
      (fun u => (u.indata, u.inroom, u.inhead, u.intail, u.inbuf 0)) = some (5, -1, 1, 0, 5) ∧
    ¬ (∀ up1, runPort tiny (idlePort tiny) rxFlood = .ok up1 → CountMatches tiny up1) := by
  have hev : (runPort tiny (idlePort tiny) rxFlood).toOption.map
      (fun u => (u.indata, u.inroom, u.inhead, u.intail, u.inbuf 0))
      = some (5, -1, 1, 0, 5) := rfl
  refine ⟨⟨rfl, rfl, rfl⟩, ⟨rfl, rfl, rfl, rfl⟩, by decide, hev, ?_⟩
  intro h
  cases hr : runPort tiny (idlePort tiny) rxFlood with
  | error e =>
    rw [hr] at hev
    cases hev
  | ok u =>
    rw [hr] at hev
    have h5 : u.indata = 5 := by
      have := congrArg (fun o => o.map (fun t : Int × Int × Int × Int × Nat => t.1)) hev
      simpa [Except.toOption] using this
    have hle := (h u hr).1.2.1
    rw [h5] at hle
    exact absurd hle (by decide)

/-- C12, amended.  Count matches content when nothing overflows.  Start from
an empty port (`inhead == intail`, `indata == 0`, `inroom == SBUFSIZE`, `txon`
false, `outhead == outtail`, `outdata == 0`, `outroom == SBUFSIZE`) and run any
sequence of `do_rx`, `ugetc`, `uputc` and `do_tx` calls in which `do_rx` never
runs with `inroom == 0` and `uputc` never runs in buffering mode with
`outroom == 0`.  In the state reached, `indata` lies in `[0, SBUFSIZE]` and is
congruent to `inhead - intail` modulo `SBUFSIZE`, likewise `outdata`; and each
ring holds a list of that many bytes from its tail on, or has illegal indices
and is empty. -/
theorem count_matches_no_overflow (k : Config) (up up1 : UART) (evs : List PortEv)
    (hrx : RxEmpty k up) (htx : TxIdle k up) (hno : NoOverflow k up evs)
    (hrun : runPort k up evs = .ok up1) :
    CountMatches k up1 ∧ RxSide k up1 ∧ TxSide k up1 := by
  obtain ⟨a1, a2, a3⟩ := hrx
  obtain ⟨_, b1, b2, b3⟩ := htx
  have hr : RxSide k up := by
    by_cases hin : inRange k up.intail
    · refine Or.inl ⟨[], ?_, by simp [a3]⟩
      rw [a1, a2]
      exact ring_empty up.inbuf up.intail hin.1 hin.2
    · exact Or.inr ⟨a2, a1, by rw [a1]; exact hin⟩
  have ht : TxSide k up := by
    by_cases hin : inRange k up.outtail
    · refine Or.inl ⟨[], ?_, by simp [b3]⟩
      rw [b1, b2]
      exact ring_empty up.outbuf up.outtail hin.1 hin.2
    · exact Or.inr ⟨b2, b1, by rw [b1]; exact hin⟩
  obtain ⟨h1, h2⟩ := runPort_sides k evs up up1 hr ht hno hrun
  exact ⟨sides_count h1 h2, h1, h2⟩

/-- C12, amended, on the 4-byte port at rest with the schedule `portDemo`:
nothing overflows, the run returns with one unread byte between `intail = 1`
and `inhead = 2` and one unsent byte between `outtail = 1` and `outhead = 2`,
and the counters match. -/
theorem count_matches_no_overflow_witness :
    RxEmpty tiny (idlePort tiny) ∧ TxIdle tiny (idlePort tiny) ∧
    NoOverflow tiny (idlePort tiny) portDemo ∧
    (runPort tiny (idlePort tiny) portDemo).toOption.map
      (fun u => (u.indata, u.inhead, u.intail, u.outdata, u.outhead, u.outtail))
      = some (1, 2, 1, 1, 2, 1) ∧
    (match runPort tiny (idlePort tiny) portDemo with
      | .ok u => CountMatches tiny u
      | .error _ => False) := by
  have hrx : RxEmpty tiny (idlePort tiny) := ⟨rfl, rfl, rfl⟩
  have htx : TxIdle tiny (idlePort tiny) := ⟨rfl, rfl, rfl, rfl⟩
  have hno : NoOverflow tiny (idlePort tiny) portDemo :=
    ⟨by decide, ⟨by decide, ⟨by decide, ⟨by decide, ⟨by decide, trivial⟩⟩⟩⟩⟩
  have hev : (runPort tiny (idlePort tiny) portDemo).toOption.map
      (fun u => (u.indata, u.inhead, u.intail, u.outdata, u.outhead, u.outtail))
      = some (1, 2, 1, 1, 2, 1) := rfl
  refine ⟨hrx, htx, hno, hev, ?_⟩
  cases hr : runPort tiny (idlePort tiny) portDemo with
  | error e =>
    rw [hr] at hev
    cases hev
  | ok u =>
    exact (count_matches_no_overflow tiny (idlePort tiny) u portDemo hrx htx hno hr).1

end PL011
